import Mathlib

/-!
# Container live migration (`pkg/kubelet/migration`)

A shallow embedding of the kubelet migration package: the dirty-page estimator
(`GetDirtyPagesSize`), the convergence policy (`BreakOrNot`), the incremental
checkpoint driver (`RuncPreDump`), the remote directory mirror (`downloadDir`,
`uploadDir`) and the inbound migration handler (`HandleTargetKubeletRequest`).

Conventions of the embedding.

* Go `float64` values are modelled by `F64`: a finite value is the rational it stands for,
  and the two infinities and NaN are separate constructors.  Every arithmetic operation
  rounds its exact result to binary64 (53 bits, nearest, ties to even); the sign of a zero
  is not kept.
* A Go `panic` is the `none` of an `Option`.
* The external world (the `runc` tool, directory listings, the pod registry, the sync path
  of the kubelet) is a parameter of the operation that consults it.
* Observable actions are recorded in an event trace returned next to the result.
* A file system is a map from paths to objects; a directory that is read is given as the
  tree of its listing.
-/

namespace Migration

/-! ## float64 -/

/-- Model of a Go `float64`: NaN, an infinity with its sign, or a finite value. -/
inductive F64 where
  | nan
  | inf (negative : Bool)
  | fin (q : ℚ)
  deriving DecidableEq

/-- Rounding of a rational to the nearest integer, a tie going to the even one. -/
def roundHalfEven (x : ℚ) : ℤ :=
  if x - ⌊x⌋ < 1 / 2 then ⌊x⌋
  else if 1 / 2 < x - ⌊x⌋ then ⌊x⌋ + 1
  else if ⌊x⌋ % 2 = 0 then ⌊x⌋ else ⌊x⌋ + 1

namespace F64

/-- The binary exponent of a value that is not zero: that of its binade, and not below the
exponent `-1022` of the subnormal numbers. -/
def exponent (x : ℚ) : ℤ := max (Int.log 2 |x|) (-1022)

/-- Rounding of an exact result to binary64: to the nearest multiple of the quantum
`2 ^ (exponent - 52)`, ties to even, and to an infinity from `2 ^ 1024` on. -/
def round (x : ℚ) : F64 :=
  if x = 0 then fin 0
  else
    let quantum : ℚ := 2 ^ (exponent x - 52)
    let y : ℚ := roundHalfEven (x / quantum) * quantum
    if (2 : ℚ) ^ (1024 : ℕ) ≤ |y| then inf (decide (x < 0)) else fin y

/-- Conversion `float64(n)` of a non-negative integer. -/
def ofNat (n : Nat) : F64 := round (n : ℚ)

/-- Go `a < b` on float64: false as soon as one side is NaN. -/
def lt : F64 → F64 → Bool
  | nan, _ => false
  | _, nan => false
  | inf true, inf true => false
  | inf true, _ => true
  | _, inf true => false
  | inf false, _ => false
  | fin _, inf false => true
  | fin a, fin b => decide (a < b)

/-- Go `a > b` on float64. -/
def gt (a b : F64) : Bool := lt b a

/-- Sign change. -/
def neg : F64 → F64
  | nan => nan
  | inf s => inf (!s)
  | fin a => fin (-a)

/-- Go `a + b` on float64. -/
def add : F64 → F64 → F64
  | nan, _ => nan
  | _, nan => nan
  | inf s, inf t => if s = t then inf s else nan
  | inf s, fin _ => inf s
  | fin _, inf t => inf t
  | fin a, fin b => round (a + b)

/-- Go `a - b` on float64. -/
def sub (a b : F64) : F64 := add a (neg b)

/-- Go `a * b` on float64. -/
def mul : F64 → F64 → F64
  | nan, _ => nan
  | _, nan => nan
  | inf s, inf t => inf (xor s t)
  | inf s, fin b => if b = 0 then nan else inf (xor s (decide (b < 0)))
  | fin a, inf t => if a = 0 then nan else inf (xor (decide (a < 0)) t)
  | fin a, fin b => round (a * b)

/-- Go `a / b` on float64; a zero divisor is the positive zero (every divisor of the package
is a sum of non-negative terms started at `0.0`). -/
def div : F64 → F64 → F64
  | nan, _ => nan
  | _, nan => nan
  | inf _, inf _ => nan
  | inf s, fin b => inf (xor s (decide (b < 0)))
  | fin _, inf _ => fin 0
  | fin a, fin b =>
    if b = 0 then (if a = 0 then nan else inf (decide (a < 0))) else round (a / b)

/-- Go `math.Abs`. -/
def abs : F64 → F64
  | nan => nan
  | inf _ => inf false
  | fin a => fin |a|

end F64

/-! ## Dirty-page estimator -/

open RegularExpression in
/-- The character class `\d` of Go regular expressions: the ten ASCII digits. -/
def reDigit : RegularExpression Char :=
  char '0' + char '1' + char '2' + char '3' + char '4' +
  char '5' + char '6' + char '7' + char '8' + char '9'

open RegularExpression in
/-- A literal piece of a pattern. -/
def reLit : List Char → RegularExpression Char
  | [] => 1
  | c :: cs => char c * reLit cs

open RegularExpression in
/-- The pattern of `regexp.MustCompile("^pages-(\d+)\.img$")`.  The anchors `^` and `$`
make a match a match of the whole name, which is how `MatchString` below applies it. -/
def filePattern : RegularExpression Char :=
  reLit "pages-".data * ((reDigit * star reDigit) * reLit ".img".data)

/-- Whole-string match, `filePattern.MatchString(name)` for an anchored pattern. -/
def MatchString (re : RegularExpression Char) (name : String) : Bool :=
  re.rmatch name.data

/-- One entry of a directory listing: its name and what `os.Stat` answers for it,
`none` when the stat fails, otherwise the size in bytes. -/
structure DirEntry where
  Name : String
  stat : Option Nat
  deriving DecidableEq

/-- Errors returned by the estimator and the driver. -/
inductive GoError where
  | readDir
  | stat
  | runc (times : Nat)
  deriving DecidableEq

/-- The loop of `GetDirtyPagesSize` over the directory entries, with the running total. -/
def GetDirtyPagesSize.loop : List DirEntry → F64 → F64 × Option GoError
  | [], dirtyPageSize => (dirtyPageSize, none)
  | fileInfo :: rest, dirtyPageSize =>
    let dirtyPageName := fileInfo.Name
    if dirtyPageName = "parent" then
      GetDirtyPagesSize.loop rest dirtyPageSize
    else if MatchString filePattern dirtyPageName then
      match fileInfo.stat with
      | none => (F64.fin 0, some GoError.stat)
      | some size =>
        GetDirtyPagesSize.loop rest (F64.add dirtyPageSize (F64.ofNat (size / 1024 / 1024)))
    else
      GetDirtyPagesSize.loop rest dirtyPageSize

/-- Function `GetDirtyPagesSize(preDumpPath)`; the argument is what `os.ReadDir(preDumpPath)` answers,
`none` when the directory cannot be listed. -/
def GetDirtyPagesSize (readDir : Option (List DirEntry)) : F64 × Option GoError :=
  match readDir with
  | none => (F64.fin 0, some GoError.readDir)
  | some fileInfos => GetDirtyPagesSize.loop fileInfos (F64.fin 0)

/-- Names of the form `pages-<one or more decimal digits>.img`, said without the pattern:
the specification of which entries are page images. -/
def IsPageImageName (name : String) : Prop :=
  ∃ digits : List Char, digits ≠ [] ∧ (∀ d ∈ digits, d ∈ "0123456789".data) ∧
    name.data = "pages-".data ++ digits ++ ".img".data

/-- Go slice expression `s[lo:hi]` on a slice whose capacity is its length: `none` is the
run-time panic "slice bounds out of range". -/
def goSlice {α : Type} (s : List α) (lo hi : Int) : Option (List α) :=
  if lo < 0 ∨ hi < lo ∨ (s.length : Int) < hi then none
  else some ((s.drop lo.toNat).take (hi.toNat - lo.toNat))

/-- The inner `for ... range subDPercentage` loop of `BreakOrNot`: it leaves at the first
value above `5.0`.  It changes no variable; the number of values it looked at is returned. -/
def BreakOrNot.scan : List F64 → Nat
  | [] => 0
  | v :: rest => if F64.gt v (F64.fin 5) then 1 else 1 + BreakOrNot.scan rest

/-- Function `BreakOrNot(DPercentage, dirtyPageSize)`; `none` is a run-time panic. -/
def BreakOrNot (DPercentage : List F64) (dirtyPageSize : F64) : Option Bool :=
  if F64.lt dirtyPageSize (F64.fin 2) then
    some true
  else if DPercentage.length < 4 then
    some false
  else
    match goSlice DPercentage ((DPercentage.length : Int) - 5) ((DPercentage.length : Int) - 1) with
    | none => none
    | some subDPercentage =>
      let _visited := BreakOrNot.scan subDPercentage
      some true

/-! ## Incremental checkpoint driver -/

/-- What the driver meets outside the process.  Iteration `i` writes into the directory
`path.Join(location, "preDump" + strconv.Itoa(i))`; the world is indexed by `i`. -/
structure World where
  /-- Whether the `runc checkpoint --pre-dump` command of iteration `i` exits with status zero. -/
  runc : Nat → Bool
  /-- What `os.ReadDir` answers for the image directory of iteration `i` once it was written. -/
  readDir : Nat → Option (List DirEntry)

/-- Observable steps of the driver, in program order. -/
inductive Event where
  /-- Call `runcCmd.Run()` of iteration `i`, with the iteration named by `--parent-path`, and whether
  the command succeeded. -/
  | checkpoint (i : Nat) (parent : Option Nat) (ok : Bool)
  /-- Call of `GetDirtyPagesSize` on the image directory of iteration `i`, with what it returned. -/
  | measure (i : Nat) (result : F64 × Option GoError)
  /-- The call `BreakOrNot(DPercentage, dirtyPageSize)` with its arguments and its answer. -/
  | ask (DPercentage : List F64) (dirtyPageSize : F64) (answer : Option Bool)
  deriving DecidableEq

/-- Result of the driver: `none` is a panic, otherwise the pair `(int, error)` it returns. -/
abbrev PreDumpResult := Option (Nat × Option GoError) × List Event

/-- The expression `math.Abs(100*(b0-b1)/b0)` of the driver. -/
def percentageChange (b0 b1 : F64) : F64 :=
  F64.abs (F64.div (F64.mul (F64.fin 100) (F64.sub b0 b1)) b0)

/-- The loop `for i := 2; i <= topPreDumpTimes; i++` of `RuncPreDump`.  `remaining` is the
number of values of `i` still to visit, `buf0` is `dirtyPageSizeBuffer[0]`, and `DPercentage`
is the slice declared before the loop.  The statement
`DPercentage := append(DPercentage, ...)` in the body declares a new variable of the same name
whose scope is the body: it is `DPercentageInner` here, and the slice declared before the loop
is what the next round sees. -/
def RuncPreDump.loop (w : World) :
    Nat → Nat → Nat → F64 → List F64 → List Event → PreDumpResult
  | 0, _, IterationTimes, _, _, trace => (some (IterationTimes, none), trace)
  | remaining + 1, i, _, buf0, DPercentage, trace =>
    let ok := w.runc i
    let trace := trace ++ [Event.checkpoint i (some (i - 1)) ok]
    if ok = false then
      (some (0, some (GoError.runc i)), trace)
    else
      let measured := GetDirtyPagesSize (w.readDir i)
      let trace := trace ++ [Event.measure i measured]
      match measured.2 with
      | some err => (some (0, some err), trace)
      | none =>
        let dirtyPageSize := measured.1
        let buf1 := dirtyPageSize
        let DPercentageInner := DPercentage ++ [percentageChange buf0 buf1]
        let answer := BreakOrNot DPercentageInner dirtyPageSize
        let trace := trace ++ [Event.ask DPercentageInner dirtyPageSize answer]
        match answer with
        | none => (none, trace)
        | some true => (some (i, none), trace)
        | some false => RuncPreDump.loop w remaining (i + 1) i buf1 DPercentage trace

/-- Function `RuncPreDump(topPreDumpTimes, location, containerID)` in the world `w`. -/
def RuncPreDump (w : World) (topPreDumpTimes : Int) : PreDumpResult :=
  let ok := w.runc 1
  let trace := [Event.checkpoint 1 none ok]
  if ok = false then
    (some (0, some (GoError.runc 1)), trace)
  else
    let measured := GetDirtyPagesSize (w.readDir 1)
    let trace := trace ++ [Event.measure 1 measured]
    match measured.2 with
    | some err => (some (0, some err), trace)
    | none =>
      RuncPreDump.loop w (topPreDumpTimes - 1).toNat 2 1 measured.1 [] trace

/-- A world in which every command succeeds and the image directory of iteration `i` holds
one page image of `sizes i` megabytes next to the `parent` link. -/
def worldOfSizes (sizes : Nat → Nat) : World where
  runc := fun _ => true
  readDir := fun i =>
    some [⟨"parent", some 0⟩, ⟨"pages-1.img", some (sizes i * 1024 * 1024)⟩]

/-! ### What a trace of the driver records, and example worlds -/

/-- The checkpoint commands and measurements recorded in a trace report the world. -/
def TraceHonest (w : World) (tr : List Event) : Prop :=
  (∀ k p ok, Event.checkpoint k p ok ∈ tr → ok = w.runc k) ∧
  (∀ k m, Event.measure k m ∈ tr → m = GetDirtyPagesSize (w.readDir k))

/-- Every checkpoint command and every measurement recorded in a trace succeeded. -/
def TraceSucceeded (tr : List Event) : Prop :=
  (∀ k p ok, Event.checkpoint k p ok ∈ tr → ok = true) ∧
  (∀ k m, Event.measure k m ∈ tr → m.2 = none)

/-- The checkpoint command or the measurement of iteration `j` is recorded as failed. -/
def FailedAt (j : Nat) (tr : List Event) : Prop :=
  (∃ p, Event.checkpoint j p false ∈ tr) ∨ (∃ v err, Event.measure j (v, some err) ∈ tr)

/-- Sizes 100, 50, 40, 40, ... megabytes for the iterations 1, 2, 3, 4, ... -/
def shrinkingSizes (i : Nat) : Nat :=
  if i = 1 then 100 else if i = 2 then 50 else 40

/-- A world in which the checkpoint command of iteration 3 fails. -/
def worldFailingAtThree : World where
  runc := fun i => decide (i ≠ 3)
  readDir := fun _ => some [⟨"pages-1.img", some (100 * 1024 * 1024)⟩]

/-! ## Migration coordinator -/

/-- Go `map[K]V` as an association list without repeated keys; `len` is the length. -/
abbrev GoMap (κ υ : Type) := List (κ × υ)

/-- Assignment `m[k] = v`. -/
def GoMap.set {κ υ : Type} [DecidableEq κ] : GoMap κ υ → κ → υ → GoMap κ υ
  | [], k, v => [(k, v)]
  | (k', v') :: rest, k, v =>
    if k' = k then (k, v) :: rest else (k', v') :: GoMap.set rest k v

/-- Lookup `m[k]` with the presence flag. -/
def GoMap.get? {κ υ : Type} [DecidableEq κ] : GoMap κ υ → κ → Option υ
  | [], _ => none
  | (k', v') :: rest, k => if k' = k then some v' else GoMap.get? rest k

/-- The pieces of `s` between the occurrences of `sep`, on character lists. -/
def splitChars (sep : Char) : List Char → List (List Char)
  | [] => [[]]
  | c :: cs =>
    if c = sep then [] :: splitChars sep cs
    else
      match splitChars sep cs with
      | [] => [[c]]
      | piece :: pieces => (c :: piece) :: pieces

/-- Go `strings.Split(s, sep)` for a separator of one character: the substrings between the
separators, a single element (the string itself) when the separator does not occur. -/
def stringsSplit (s : String) (sep : Char) : List String :=
  (splitChars sep s.data).map String.mk

/-- Type `v1.PodPhase`, a string. -/
abbrev PodPhase := String

/-- Constant `v1.PodRunning`. -/
def PodRunning : PodPhase := "Running"

/-- The fields of `v1.Pod` the package reads. -/
structure Pod where
  UID : String
  Name : String
  Phase : PodPhase
  deriving DecidableEq

/-- The two channels of a migration record. -/
inductive Chan where
  | done
  | unblock
  deriving DecidableEq

/-- Record `migration`; its channels `unblock` and `done` are made with the record and are
named by `Chan` in the events. -/
structure migration where
  path : String
  containers : List String
  deriving DecidableEq

/-- Struct `container.MigratePodOptions`, the descriptor handed to the sync path. -/
structure MigratePodOptions where
  KeepRunning : Bool
  CheckpointsDir : String
  Unblock : Chan
  Done : Chan
  Containers : List String
  deriving DecidableEq

/-- Method `Options` of the record. -/
def migration.Options (mg : migration) : MigratePodOptions where
  KeepRunning := false
  CheckpointsDir := mg.path
  Unblock := Chan.unblock
  Done := Chan.done
  Containers := mg.containers

/-- Struct `Result`. -/
structure Result where
  Path : String
  Containers : GoMap String String
  deriving DecidableEq

/-- Struct `migrationRequestParams`. -/
structure migrationRequestParams where
  podUID : String
  containerNames : List String

/-- The state of `migrationManager` that the handler reads and writes. -/
structure migrationManager where
  migrationPath : String
  migrations : GoMap String migration
  deriving DecidableEq

/-- What the manager is given and what it meets: `path.Join`, the pod registry, and the sync
path of the kubelet behind the dispatch hook. -/
structure Kubelet where
  /-- Function `path.Join` of two elements. -/
  pathJoin : String → String → String
  /-- Method `podManager.GetPodByUID`; `none` is the `false` flag. -/
  GetPodByUID : String → Option Pod
  /-- What the sync path does once dispatched for the pod, with the options of the record in
  hand: `none` when it never sends on `Done`, otherwise the `containers` slice of the record
  at the moment it does. -/
  syncPod : Pod → MigratePodOptions → Option (List String)
  /-- Whether somebody ever receives from `Unblock` for the pod (the sync path, or a caller of
  `WaitUntilFinished`). -/
  takesUnblock : Pod → Bool

/-- Constructor `NewMigrationManager`. -/
def NewMigrationManager (k : Kubelet) (rootPath : String) : migrationManager where
  migrationPath := k.pathJoin rootPath "migration"
  migrations := []

/-- The inbound request: the path parameter `podUID` and the query parameter `containers`. -/
structure Request where
  podUID : String
  containers : String

/-- The HTTP response as the peer sees it: the status line once it is written, and the body. -/
structure Response where
  status : Option Nat
  body : Option Result
  deriving DecidableEq

/-- A response on which nothing was written. -/
def Response.fresh : Response := ⟨none, none⟩

/-- Method `WriteHeader` of the response: the first status written is the one sent. -/
def Response.WriteHeader (res : Response) (status : Nat) : Response :=
  match res.status with
  | none => { res with status := some status }
  | some _ => res

/-- Method `WriteAsJson` of the response: it writes the status when none was written, 200
unless set otherwise, and the encoded value as the body. -/
def Response.WriteAsJson (res : Response) (r : Result) : Response :=
  { status := some (res.status.getD 200), body := some r }

/-- Constant `http.StatusOK`. -/
def StatusOK : Nat := 200

/-- Constant `http.StatusNotFound`. -/
def StatusNotFound : Nat := 404

/-- Constant `http.StatusConflict`. -/
def StatusConflict : Nat := 409

/-- Observable steps of the handler, in program order. -/
inductive HEvent where
  /-- Call `os.MkdirAll` of `IsPathExists`. -/
  | mkdirAll (path : String)
  /-- Call of the dispatch hook `dispatchSyncPodMigrateFn(pod)`. -/
  | dispatch (pod : Pod)
  /-- A completed receive from a channel of the record. -/
  | recv (c : Chan)
  /-- A completed send on a channel of the record. -/
  | send (c : Chan)
  /-- Call `res.WriteAsJson(r)`. -/
  | writeAsJson (r : Result)
  /-- Call `res.WriteHeader(status)`. -/
  | writeHeader (status : Nat)
  deriving DecidableEq

/-- Method `newMigration`: the record and the manager with the record stored under the UID. -/
def migrationManager.newMigration (k : Kubelet) (m : migrationManager) (pod : Pod) :
    migrationManager × migration :=
  let mig : migration := { path := k.pathJoin m.migrationPath pod.UID, containers := [] }
  ({ m with migrations := GoMap.set m.migrations pod.UID mig }, mig)

/-- Method `FindMigrationForPod`; `none` is the `false` flag. -/
def migrationManager.FindMigrationForPod (m : migrationManager) (pod : Pod) : Option migration :=
  GoMap.get? m.migrations pod.UID

/-- The loop `for _, c := range mig.containers` that fills `r.Containers`. -/
def fillContainers (k : Kubelet) (path : String) :
    List String → GoMap String String → GoMap String String
  | [], Containers => Containers
  | c :: rest, Containers =>
    fillContainers k path rest (GoMap.set Containers c (k.pathJoin path c))

/-- What a call of the handler leaves: the manager, the response, the steps taken, and whether
the call returned (it does not when it stays blocked on a channel). -/
structure Handled where
  manager : migrationManager
  response : Response
  trace : List HEvent
  returned : Bool

/-- Method `HandleTargetKubeletRequest`.  The map of the manager holds a pointer to the record,
so what is written to the record afterwards is stored under the UID as well. -/
def HandleTargetKubeletRequest (k : Kubelet) (m : migrationManager) (req : Request)
    (res : Response) : Handled :=
  let params : migrationRequestParams :=
    { podUID := req.podUID, containerNames := stringsSplit req.containers ',' }
  match k.GetPodByUID params.podUID with
  | none =>
    { manager := m, response := res.WriteHeader StatusNotFound,
      trace := [HEvent.writeHeader StatusNotFound], returned := true }
  | some pod =>
    if pod.Phase ≠ PodRunning then
      { manager := m, response := res.WriteHeader StatusConflict,
        trace := [HEvent.writeHeader StatusConflict], returned := true }
    else
      let created := m.newMigration k pod
      let mig : migration := { created.2 with containers := params.containerNames }
      let m1 : migrationManager :=
        { created.1 with migrations := GoMap.set created.1.migrations pod.UID mig }
      let trace := [HEvent.mkdirAll mig.path, HEvent.dispatch pod]
      match k.syncPod pod mig.Options with
      | none => { manager := m1, response := res, trace := trace, returned := false }
      | some containers =>
        let mig : migration := { mig with containers := containers }
        let m2 : migrationManager :=
          { m1 with migrations := GoMap.set m1.migrations pod.UID mig }
        let trace := trace ++ [HEvent.recv Chan.done]
        let r : Result :=
          { Path := mig.path, Containers := fillContainers k mig.path mig.containers [] }
        let res := res.WriteAsJson r
        let trace := trace ++ [HEvent.writeAsJson r]
        let res := res.WriteHeader StatusOK
        let trace := trace ++ [HEvent.writeHeader StatusOK]
        if k.takesUnblock pod then
          { manager := m2, response := res, trace := trace ++ [HEvent.send Chan.unblock],
            returned := true }
        else
          { manager := m2, response := res, trace := trace, returned := false }

/-- Receiving from `done` is the `ready` signal. -/
def HEvent.isReady : HEvent → Bool
  | HEvent.recv Chan.done => true
  | _ => false

/-- Writing the response: the body with `WriteAsJson`, the status with `WriteHeader`. -/
def HEvent.isResponse : HEvent → Bool
  | HEvent.writeAsJson _ => true
  | HEvent.writeHeader _ => true
  | _ => false

/-- Sending on `unblock` is the `release` signal. -/
def HEvent.isRelease : HEvent → Bool
  | HEvent.send Chan.unblock => true
  | _ => false

/-- Every step of the sequence that satisfies `q` comes after a step that satisfies `p`. -/
def Precedes {α : Type} (p q : α → Bool) (tr : List α) : Prop :=
  ∀ (j : Nat) (b : α), tr[j]? = some b → q b = true →
    ∃ (i : Nat) (a : α), i < j ∧ tr[i]? = some a ∧ p a = true

/-- A kubelet for examples: one running pod `uid-1`, one pending pod `uid-2`, a sync path that
signals `done` without touching the record, and a receiver on `unblock`. -/
def exampleKubelet : Kubelet where
  pathJoin := fun a b => a ++ "/" ++ b
  GetPodByUID := fun uid =>
    if uid = "uid-1" then some ⟨"uid-1", "web", "Running"⟩
    else if uid = "uid-2" then some ⟨"uid-2", "db", "Pending"⟩
    else none
  syncPod := fun _ options => some options.Containers
  takesUnblock := fun _ => true

/-- The example kubelet with a sync path that never signals `done`. -/
def stalledKubelet : Kubelet :=
  { exampleKubelet with syncPod := fun _ _ => none }

/-! ## Remote directory mirror -/

/-- What `Lstat` finds behind an entry that is not a directory: a regular file with its bytes,
or a symbolic link with its target. -/
inductive Leaf where
  | file (content : List UInt8)
  | symlink (target : String)
  deriving DecidableEq

/-- What `ReadDir` answers for a directory, with what stands behind each entry: a directory
entry carries the listing of that directory. -/
inductive Listing where
  | nil
  | leaf (name : String) (what : Leaf) (rest : Listing)
  | dir (name : String) (children : Listing) (rest : Listing)

/-- An object of a file system. -/
inductive Obj where
  | dir
  | file (content : List UInt8)
  | symlink (target : String)
  deriving DecidableEq

/-- A path, as the list of its elements from the root; `filepath.Join(p, name)` is
`p ++ [name]`. -/
abbrev Path := List String

/-- A file system: the object found at each path, if any. -/
abbrev FS := Path → Option Obj

/-- The file system that holds the root directory and nothing else. -/
def FS.empty : FS := fun p => if p = [] then some Obj.dir else none

/-- The file system with the object `o` at `path`. -/
def FS.put (fs : FS) (path : Path) (o : Obj) : FS :=
  fun q => if q = path then some o else fs q

/-- Call `MkdirAll(path)` (of `os` or of the sftp client): it fails when the path or one of
its ancestors is there and is not a directory, and otherwise makes the path and every missing
ancestor a directory.  Symbolic links are not resolved: a link on the way counts as an object
that is not a directory. -/
def FS.MkdirAll (fs : FS) (path : Path) : Option FS :=
  if path.inits.all (fun q => decide (fs q = none ∨ fs q = some Obj.dir)) then
    some fun q => if q ∈ path.inits then some Obj.dir else fs q
  else none

/-- Nothing or a regular file. -/
def Obj.freeOrFile : Option Obj → Bool
  | none => true
  | some (Obj.file _) => true
  | some _ => false

/-- Call `Create(path)`: the parent has to be a directory, and the path free or a regular
file; the file is there and empty afterwards.  A symbolic link at the path is not resolved:
the call fails on it. -/
def FS.Create (fs : FS) (path : Path) : Option FS :=
  if path ≠ [] ∧ fs path.dropLast = some Obj.dir ∧ Obj.freeOrFile (fs path) = true then
    some (fs.put path (Obj.file []))
  else none

/-- Call `io.Copy` into the file opened at `path`. -/
def FS.Copy (fs : FS) (path : Path) (content : List UInt8) : FS :=
  fs.put path (Obj.file content)

/-- Call `Symlink(target, path)`: the parent has to be a directory and the path free. -/
def FS.Symlink (fs : FS) (target : String) (path : Path) : Option FS :=
  if path ≠ [] ∧ fs path.dropLast = some Obj.dir ∧ fs path = none then
    some (fs.put path (Obj.symlink target))
  else none

/-- The destination of a transfer and the errors logged with `klog.Error` so far. -/
structure Mirror where
  fs : FS
  log : List String

/-- Function `downloadFile`; `none` is the `log.Panic` after a failed `os.Symlink`. -/
def downloadFile (remote : Leaf) (localPath : Path) (st : Mirror) : Option Mirror :=
  match remote with
  | Leaf.symlink linkTo =>
    match st.fs.Symlink linkTo localPath with
    | none => none
    | some fs => some { st with fs := fs }
  | Leaf.file content =>
    match st.fs.Create localPath with
    | none =>
      some { st with log := st.log ++
        ["failed to read create symlink locally", "failed to read copy file"] }
    | some fs => some { st with fs := fs.Copy localPath content }

/-- The call `os.MkdirAll(localPath, 0755)` of `downloadDir`, whose error is logged. -/
def downloadDir.mkdir (localPath : Path) (st : Mirror) : Mirror :=
  match st.fs.MkdirAll localPath with
  | none => { st with log := st.log ++ ["failed to mkdir locally"] }
  | some fs => { st with fs := fs }

/-- The loop of `downloadDir` over the remote entries.  Each round starts a goroutine for its
entry and `wg.Wait()` returns when all are done; the goroutines write under different names of
the local directory, and they are run here one after the other, in the order of the listing.
The round of a directory entry is the call `downloadDir(sftpClient, remoteFilePath,
localFilePath)`: its `MkdirAll` and its own loop. -/
def downloadDir.loop : Listing → Path → Mirror → Option Mirror
  | Listing.nil, _, st => some st
  | Listing.leaf name what rest, localPath, st =>
    (downloadFile what (localPath ++ [name]) st).bind (downloadDir.loop rest localPath)
  | Listing.dir name children rest, localPath, st =>
    (downloadDir.loop children (localPath ++ [name])
      (downloadDir.mkdir (localPath ++ [name]) st)).bind (downloadDir.loop rest localPath)

/-- Function `downloadDir(sftpClient, remotePath, localPath)`; `remoteFiles` is what the remote
side holds at `remotePath`. -/
def downloadDir (remoteFiles : Listing) (localPath : Path) (st : Mirror) : Option Mirror :=
  downloadDir.loop remoteFiles localPath (downloadDir.mkdir localPath st)

/-- Function `uploadFile`; `none` is the `log.Panic` after a failed `sftpClient.Symlink`. -/
def uploadFile (loc : Leaf) (remotePath : Path) (st : Mirror) : Option Mirror :=
  match loc with
  | Leaf.symlink linkTo =>
    match st.fs.Symlink linkTo remotePath with
    | none => none
    | some fs => some { st with fs := fs }
  | Leaf.file content =>
    match st.fs.Create remotePath with
    | none => some { st with log := st.log ++ ["failed to create remote file"] }
    | some fs => some { st with fs := fs.Copy remotePath content }

/-- The call `sftpClient.MkdirAll(remotePath)` of `uploadDir`, whose error is logged. -/
def uploadDir.mkdir (remotePath : Path) (st : Mirror) : Mirror :=
  match st.fs.MkdirAll remotePath with
  | none => { st with log := st.log ++ ["failed to create remote dir"] }
  | some fs => { st with fs := fs }

/-- The loop of `uploadDir` over the local entries, run like the loop of `downloadDir`. -/
def uploadDir.loop : Listing → Path → Mirror → Option Mirror
  | Listing.nil, _, st => some st
  | Listing.leaf name what rest, remotePath, st =>
    (uploadFile what (remotePath ++ [name]) st).bind (uploadDir.loop rest remotePath)
  | Listing.dir name children rest, remotePath, st =>
    (uploadDir.loop children (remotePath ++ [name])
      (uploadDir.mkdir (remotePath ++ [name]) st)).bind (uploadDir.loop rest remotePath)

/-- Function `uploadDir(sftpClient, localPath, remotePath)`; `localFiles` is what the local
side holds at `localPath`. -/
def uploadDir (localFiles : Listing) (remotePath : Path) (st : Mirror) : Option Mirror :=
  uploadDir.loop localFiles remotePath (uploadDir.mkdir remotePath st)

/-- The object of a leaf. -/
def Leaf.obj : Leaf → Obj
  | Leaf.file content => Obj.file content
  | Leaf.symlink target => Obj.symlink target

/-- The names of the entries of a listing. -/
def Listing.names : Listing → List String
  | Listing.nil => []
  | Listing.leaf name _ rest => name :: rest.names
  | Listing.dir name _ rest => name :: rest.names

/-- A listing names each entry once, at every depth. -/
def Listing.WF : Listing → Prop
  | Listing.nil => True
  | Listing.leaf name _ rest => name ∉ rest.names ∧ rest.WF
  | Listing.dir name children rest => name ∉ rest.names ∧ children.WF ∧ rest.WF

/-- The object found in the source tree at a path relative to the mirrored directory. -/
def Listing.lookup : Listing → Path → Option Obj
  | _, [] => some Obj.dir
  | Listing.nil, _ :: _ => none
  | Listing.leaf name what rest, n :: q =>
    if n = name then (if q = [] then some what.obj else none) else rest.lookup (n :: q)
  | Listing.dir name children rest, n :: q =>
    if n = name then children.lookup q else rest.lookup (n :: q)

/-- A tree with a nested directory, a regular file and a symbolic link. -/
def exampleTree : Listing :=
  Listing.dir "layers" (Listing.leaf "pages-1.img" (Leaf.file [1, 2, 3]) Listing.nil)
    (Listing.leaf "parent" (Leaf.symlink "../preDump1") Listing.nil)

/-! ## Theorems: float64 -/

/-- An integer is its own rounding. -/
theorem roundHalfEven_intCast (z : ℤ) : roundHalfEven (z : ℚ) = z := by
  simp [roundHalfEven]

/-- An integer of magnitude at most `2^53` is a float64: rounding leaves it as it is. -/
theorem F64.round_intCast (z : ℤ) (h : |z| ≤ 2 ^ 53) : F64.round (z : ℚ) = F64.fin z := by
  unfold F64.round
  by_cases hz : z = 0
  · simp [hz]
  have hzq : (z : ℚ) ≠ 0 := by exact_mod_cast hz
  rw [if_neg hzq]
  have habs1 : (1 : ℚ) ≤ |(z : ℚ)| := by
    have : (1 : ℤ) ≤ |z| := Int.one_le_abs hz
    exact_mod_cast this
  have habs2 : |(z : ℚ)| ≤ 2 ^ (53 : ℤ) := by
    have : |(z : ℚ)| ≤ (2 : ℚ) ^ (53 : ℕ) := by exact_mod_cast h
    rwa [show (2 : ℚ) ^ (53 : ℤ) = (2 : ℚ) ^ (53 : ℕ) by norm_num]
  have hpos : (0 : ℚ) < |(z : ℚ)| := lt_of_lt_of_le one_pos habs1
  have hlog0 : 0 ≤ Int.log 2 |(z : ℚ)| := by
    have := @Int.log_mono_right ℚ _ _ 2 _ _ (one_pos : (0 : ℚ) < 1) habs1
    rwa [Int.log_one_right] at this
  have hlog53 : Int.log 2 |(z : ℚ)| ≤ 53 := by
    have := @Int.log_mono_right ℚ _ _ 2 _ _ hpos habs2
    rwa [show ((2 : ℚ) ^ (53 : ℤ)) = ((2 : ℕ) : ℚ) ^ (53 : ℤ) by norm_num,
      Int.log_zpow (by norm_num)] at this
  have hexp : F64.exponent (z : ℚ) = Int.log 2 |(z : ℚ)| := by
    unfold F64.exponent
    omega
  -- the quotient by the quantum is an integer
  have hint : ∃ m : ℤ, (z : ℚ) / 2 ^ (Int.log 2 |(z : ℚ)| - 52) = m := by
    rcases Int.lt_or_le (Int.log 2 |(z : ℚ)|) 53 with hlt | hge
    · obtain ⟨n, hn⟩ := Int.eq_ofNat_of_zero_le (show 0 ≤ 52 - Int.log 2 |(z : ℚ)| by omega)
      refine ⟨z * 2 ^ n, ?_⟩
      have he : Int.log 2 |(z : ℚ)| - 52 = -(n : ℤ) := by omega
      rw [he, zpow_neg, zpow_natCast]
      push_cast
      field_simp
    · have he : Int.log 2 |(z : ℚ)| = 53 := le_antisymm hlog53 hge
      have hle := @Int.zpow_log_le_self ℚ _ _ 2 _ (by norm_num) hpos
      rw [he] at hle
      have hzabs : |z| = 2 ^ 53 := by
        apply le_antisymm h
        have : ((2 : ℚ) ^ (53 : ℕ)) ≤ |(z : ℚ)| := by
          have h2 : ((2 : ℕ) : ℚ) ^ (53 : ℤ) = (2 : ℚ) ^ (53 : ℕ) := by norm_num
          rwa [h2] at hle
        exact_mod_cast this
      rw [he]
      rcases abs_eq (by norm_num : (0 : ℤ) ≤ 2 ^ 53) |>.1 hzabs with h1 | h1
      · exact ⟨2 ^ 52, by rw [h1]; norm_num⟩
      · exact ⟨-2 ^ 52, by rw [h1]; norm_num⟩
  obtain ⟨m, hm⟩ := hint
  simp only [hexp, hm, roundHalfEven_intCast]
  have hy : (m : ℚ) * 2 ^ (Int.log 2 |(z : ℚ)| - 52) = z := by
    rw [← hm]
    field_simp
  rw [hy, if_neg]
  have : (2 : ℚ) ^ (53 : ℤ) < 2 ^ (1024 : ℕ) := by norm_num
  exact not_le.2 (lt_of_le_of_lt habs2 this)

/-- A natural number up to `2^53` is a float64. -/
theorem F64.round_natCast (n : ℕ) (h : n ≤ 2 ^ 53) : F64.round (n : ℚ) = F64.fin n := by
  have := F64.round_intCast (n : ℤ) (by rw [abs_of_nonneg (by positivity)]; exact_mod_cast h)
  simpa using this

open RegularExpression

theorem reLit_rmatch_iff (cs x : List Char) : (reLit cs).rmatch x = true ↔ x = cs := by
  induction cs generalizing x with
  | nil => exact one_rmatch_iff x
  | cons c cs ih =>
    rw [reLit, mul_rmatch_iff]
    constructor
    · rintro ⟨t, u, rfl, ht, hu⟩
      rw [char_rmatch_iff] at ht
      rw [ih] at hu
      simp [ht, hu]
    · rintro rfl
      exact ⟨[c], cs, rfl, (char_rmatch_iff c [c]).2 rfl, (ih cs).2 rfl⟩

theorem reDigit_rmatch_iff (x : List Char) :
    reDigit.rmatch x = true ↔ ∃ d, d ∈ "0123456789".data ∧ x = [d] := by
  simp only [reDigit, add_rmatch_iff, char_rmatch_iff]
  constructor
  · intro h
    rcases h with ((((((((h | h) | h) | h) | h) | h) | h) | h) | h) | h <;> subst h <;> simp
  · rintro ⟨d, hd, rfl⟩
    simp at hd
    rcases hd with h | h | h | h | h | h | h | h | h | h <;> subst h <;> simp

theorem star_reDigit_rmatch_iff (x : List Char) :
    (star reDigit).rmatch x = true ↔ ∀ d ∈ x, d ∈ "0123456789".data := by
  rw [star_rmatch_iff]
  constructor
  · rintro ⟨S, rfl, hS⟩ d hd
    rw [List.mem_flatten] at hd
    obtain ⟨t, ht, hdt⟩ := hd
    obtain ⟨e, he, rfl⟩ := (reDigit_rmatch_iff t).1 (hS t ht).2
    simp at hdt
    subst hdt
    exact he
  · intro h
    refine ⟨x.map fun d => [d], ?_, ?_⟩
    · clear h
      induction x with
      | nil => rfl
      | cons a l ih => simpa using ih
    · intro t ht
      rw [List.mem_map] at ht
      obtain ⟨d, hd, rfl⟩ := ht
      exact ⟨by simp, (reDigit_rmatch_iff [d]).2 ⟨d, h d hd, rfl⟩⟩

theorem MatchString_filePattern_iff (name : String) :
    MatchString filePattern name = true ↔ IsPageImageName name := by
  unfold MatchString filePattern IsPageImageName
  rw [mul_rmatch_iff]
  constructor
  · rintro ⟨t, u, hx, ht, hu⟩
    rw [reLit_rmatch_iff] at ht
    rw [mul_rmatch_iff] at hu
    obtain ⟨v, w, rfl, hv, hw⟩ := hu
    rw [reLit_rmatch_iff] at hw
    rw [mul_rmatch_iff] at hv
    obtain ⟨a, b, rfl, ha, hb⟩ := hv
    obtain ⟨d, hd, rfl⟩ := (reDigit_rmatch_iff a).1 ha
    rw [star_reDigit_rmatch_iff] at hb
    refine ⟨[d] ++ b, by simp, ?_, ?_⟩
    · intro e he
      rcases List.mem_append.1 he with h | h
      · rw [List.mem_singleton] at h
        rw [h]; exact hd
      · exact hb e h
    · rw [hx, ht, hw]; simp
  · rintro ⟨digits, hne, hd, hx⟩
    cases digits with
    | nil => exact absurd rfl hne
    | cons d ds =>
      refine ⟨"pages-".data, (d :: ds) ++ ".img".data, ?_, (reLit_rmatch_iff _ _).2 rfl, ?_⟩
      · rw [hx]; simp
      · rw [mul_rmatch_iff]
        refine ⟨d :: ds, ".img".data, rfl, ?_, (reLit_rmatch_iff _ _).2 rfl⟩
        rw [mul_rmatch_iff]
        refine ⟨[d], ds, rfl, (reDigit_rmatch_iff _).2 ⟨d, hd d (by simp), rfl⟩, ?_⟩
        rw [star_reDigit_rmatch_iff]
        intro e he
        exact hd e (by simp [he])

/-- Being a page image name is decided by the pattern. -/
instance instDecidableIsPageImageName (name : String) : Decidable (IsPageImageName name) :=
  decidable_of_iff _ (MatchString_filePattern_iff name)

/-- The name `parent` is not a page image name. -/
theorem not_isPageImageName_parent : ¬ IsPageImageName "parent" := by decide

/-- The loop of the estimator adds to the running total the whole megabytes of each page image,
and returns no error when every stat succeeds; the additions are exact as long as the total
stays at or below `2^53`. -/
theorem loop_eq_sum (dir : List (String × Nat)) (a : ℕ)
    (hbound : a + ((dir.filter fun e => decide (IsPageImageName e.1)).map
      fun e => e.2 / 1024 / 1024).sum ≤ 2 ^ 53) :
    GetDirtyPagesSize.loop (dir.map fun e => ⟨e.1, some e.2⟩) (F64.fin a) =
      (F64.fin ((a + ((dir.filter fun e => decide (IsPageImageName e.1)).map
        fun e => e.2 / 1024 / 1024).sum : ℕ) : ℚ), none) := by
  induction dir generalizing a with
  | nil => simp [GetDirtyPagesSize.loop]
  | cons e rest ih =>
    simp only [List.map_cons, GetDirtyPagesSize.loop]
    by_cases hp : e.1 = "parent"
    · have hn : ¬ IsPageImageName e.1 := by rw [hp]; exact not_isPageImageName_parent
      simp only [List.filter_cons, hn, decide_False, Bool.false_eq_true, if_false] at hbound ⊢
      rw [if_pos hp]
      exact ih a hbound
    · rw [if_neg hp]
      by_cases hm : IsPageImageName e.1
      · have hm2 : MatchString filePattern e.1 = true := (MatchString_filePattern_iff _).2 hm
        simp only [List.filter_cons, hm, decide_True, if_true, List.map_cons,
          List.sum_cons] at hbound ⊢
        rw [if_pos hm2]
        have h1 : F64.ofNat (e.2 / 1024 / 1024) = F64.fin ((e.2 / 1024 / 1024 : ℕ) : ℚ) :=
          F64.round_natCast _ (by omega)
        have h2 : F64.add (F64.fin a) (F64.fin ((e.2 / 1024 / 1024 : ℕ) : ℚ)) =
            F64.fin ((a + e.2 / 1024 / 1024 : ℕ) : ℚ) := by
          have := F64.round_natCast (a + e.2 / 1024 / 1024) (by omega)
          simp only [F64.add]
          rw [← this]
          push_cast
          rfl
        rw [h1, h2, ih (a + e.2 / 1024 / 1024) (by omega), Nat.add_assoc]
      · have hm2 : MatchString filePattern e.1 = false := by
          rw [← Bool.not_eq_true, MatchString_filePattern_iff]; exact hm
        simp only [List.filter_cons, hm, decide_False, Bool.false_eq_true, if_false] at hbound ⊢
        rw [hm2]
        exact ih a hbound

/-- C5: whatever the history of percentage changes (of any length, the empty one included),
`BreakOrNot` returns true when the latest dirty-page size is strictly below the floor `2.0`. -/
theorem BreakOrNot_below_floor (DPercentage : List F64) (dirtyPageSize : F64)
    (h : F64.lt dirtyPageSize (F64.fin 2) = true) :
    BreakOrNot DPercentage dirtyPageSize = some true := by
  simp [BreakOrNot, h]

/-- The policy stops on a history of four values and a size of one megabyte. -/
theorem BreakOrNot_below_floor_witness :
    F64.lt (F64.fin 1) (F64.fin 2) = true ∧
      BreakOrNot [F64.fin 50, F64.fin 40, F64.fin 30, F64.fin 20] (F64.fin 1) = some true :=
  ⟨by decide, BreakOrNot_below_floor _ _ (by decide)⟩

/-- With a size not below the floor and fewer than four values, the policy continues. -/
theorem BreakOrNot_short (DPercentage : List F64) (dirtyPageSize : F64)
    (h : F64.lt dirtyPageSize (F64.fin 2) = false) (hlen : DPercentage.length < 4) :
    BreakOrNot DPercentage dirtyPageSize = some false := by
  simp [BreakOrNot, h, hlen]

/-- With a size not below the floor and exactly four values, the slice expression
`DPercentage[len-5 : len-1]` has the lower bound `-1` and the call panics. -/
theorem BreakOrNot_four (DPercentage : List F64) (dirtyPageSize : F64)
    (h : F64.lt dirtyPageSize (F64.fin 2) = false) (hlen : DPercentage.length = 4) :
    BreakOrNot DPercentage dirtyPageSize = none := by
  simp [BreakOrNot, h, hlen, goSlice]

/-- With five values or more the policy stops, whatever the values are. -/
theorem BreakOrNot_long (DPercentage : List F64) (dirtyPageSize : F64)
    (hlen : 5 ≤ DPercentage.length) :
    BreakOrNot DPercentage dirtyPageSize = some true := by
  unfold BreakOrNot
  split
  · rfl
  · rw [if_neg (by omega)]
    have : goSlice DPercentage ((DPercentage.length : Int) - 5) ((DPercentage.length : Int) - 1) ≠ none := by
      unfold goSlice
      rw [if_neg (by omega)]
      simp
    split
    · contradiction
    · rfl

/-- C6: on the history `[1, 1, 1, 1]` (four values, all at or below `5.0`) and the size `10`,
`BreakOrNot` does not return true: the slice expression `DPercentage[len-5 : len-1]` is
`DPercentage[-1:3]` and the call panics. -/
theorem BreakOrNot_four_stable_panics :
    BreakOrNot [F64.fin 1, F64.fin 1, F64.fin 1, F64.fin 1] (F64.fin 10) = none := by
  decide

/-- C7: on the history `[10, 10, 10, 10, 10]` (every value above `5.0`) and the size `10` (not
below the floor), `BreakOrNot` returns true and not false: the `break` leaves the inner loop
only, and `return true` follows it in every case. -/
theorem BreakOrNot_unstable_stops :
    BreakOrNot [F64.fin 10, F64.fin 10, F64.fin 10, F64.fin 10, F64.fin 10] (F64.fin 10)
      = some true := by
  decide

/-! ## Theorems: checkpoint driver -/

theorem honest_snoc_checkpoint {w : World} {tr : List Event} (h : TraceHonest w tr)
    (i : Nat) (p : Option Nat) :
    TraceHonest w (tr ++ [Event.checkpoint i p (w.runc i)]) := by
  refine ⟨fun k q ok hk => ?_, fun k m hk => ?_⟩
  · rcases List.mem_append.1 hk with hk | hk
    · exact h.1 k q ok hk
    · simp at hk
      rw [hk.1, hk.2.2]
  · rcases List.mem_append.1 hk with hk | hk
    · exact h.2 k m hk
    · simp at hk

theorem honest_snoc_measure {w : World} {tr : List Event} (h : TraceHonest w tr) (i : Nat) :
    TraceHonest w (tr ++ [Event.measure i (GetDirtyPagesSize (w.readDir i))]) := by
  refine ⟨fun k q ok hk => ?_, fun k m hk => ?_⟩
  · rcases List.mem_append.1 hk with hk | hk
    · exact h.1 k q ok hk
    · simp at hk
  · rcases List.mem_append.1 hk with hk | hk
    · exact h.2 k m hk
    · simp at hk
      rw [hk.1, hk.2]

theorem honest_snoc_ask {w : World} {tr : List Event} (h : TraceHonest w tr)
    (D : List F64) (s : F64) (a : Option Bool) :
    TraceHonest w (tr ++ [Event.ask D s a]) := by
  refine ⟨fun k q ok hk => ?_, fun k m hk => ?_⟩
  · rcases List.mem_append.1 hk with hk | hk
    · exact h.1 k q ok hk
    · simp at hk
  · rcases List.mem_append.1 hk with hk | hk
    · exact h.2 k m hk
    · simp at hk

theorem succeeded_snoc_checkpoint {tr : List Event} (h : TraceSucceeded tr)
    (i : Nat) (p : Option Nat) :
    TraceSucceeded (tr ++ [Event.checkpoint i p true]) := by
  refine ⟨fun k q ok hk => ?_, fun k m hk => ?_⟩
  · rcases List.mem_append.1 hk with hk | hk
    · exact h.1 k q ok hk
    · simp at hk
      exact hk.2.2
  · rcases List.mem_append.1 hk with hk | hk
    · exact h.2 k m hk
    · simp at hk

theorem succeeded_snoc_measure {tr : List Event} (h : TraceSucceeded tr)
    (i : Nat) (m : F64 × Option GoError) (hm : m.2 = none) :
    TraceSucceeded (tr ++ [Event.measure i m]) := by
  refine ⟨fun k q ok hk => ?_, fun k m hk => ?_⟩
  · rcases List.mem_append.1 hk with hk | hk
    · exact h.1 k q ok hk
    · simp at hk
  · rcases List.mem_append.1 hk with hk | hk
    · exact h.2 k m hk
    · simp at hk
      rw [hk.2]; exact hm

theorem succeeded_snoc_ask {tr : List Event} (h : TraceSucceeded tr)
    (D : List F64) (s : F64) (a : Option Bool) :
    TraceSucceeded (tr ++ [Event.ask D s a]) := by
  refine ⟨fun k q ok hk => ?_, fun k m hk => ?_⟩
  · rcases List.mem_append.1 hk with hk | hk
    · exact h.1 k q ok hk
    · simp at hk
  · rcases List.mem_append.1 hk with hk | hk
    · exact h.2 k m hk
    · simp at hk

theorem not_failedAt_of_succeeded {tr : List Event} (h : TraceSucceeded tr) (j : Nat) :
    ¬ FailedAt j tr := by
  rintro (⟨p, hp⟩ | ⟨v, err, hm⟩)
  · exact absurd (h.1 _ _ _ hp) (by simp)
  · exact absurd (h.2 _ _ hm) (by simp)

/-- A failure recorded in a trace whose earlier part succeeded is a failure of the last step. -/
theorem failedAt_snoc {tr : List Event} (h : TraceSucceeded tr) {j : Nat} {e : Event}
    (hf : FailedAt j (tr ++ [e])) :
    (∃ p, e = Event.checkpoint j p false) ∨ (∃ v err, e = Event.measure j (v, some err)) := by
  rcases hf with ⟨p, hp⟩ | ⟨v, err, hm⟩
  · rcases List.mem_append.1 hp with hp | hp
    · exact absurd (h.1 _ _ _ hp) (by simp)
    · exact Or.inl ⟨p, (List.mem_singleton.1 hp).symm⟩
  · rcases List.mem_append.1 hm with hm | hm
    · exact absurd (h.2 _ _ hm) (by simp)
    · exact Or.inr ⟨v, err, (List.mem_singleton.1 hm).symm⟩

theorem loop_sound (w : World) (remaining : Nat) :
    ∀ (i it : Nat) (buf0 : F64) (D : List F64) (tr : List Event),
      TraceHonest w tr → TraceSucceeded tr →
      (∀ k p ok, Event.checkpoint k p ok ∈ tr → k < i) →
      TraceHonest w (RuncPreDump.loop w remaining i it buf0 D tr).2 ∧
      (∀ n, (RuncPreDump.loop w remaining i it buf0 D tr).1 = some (n, none) →
        TraceSucceeded (RuncPreDump.loop w remaining i it buf0 D tr).2) ∧
      (∀ j, FailedAt j (RuncPreDump.loop w remaining i it buf0 D tr).2 →
        (∃ err, (RuncPreDump.loop w remaining i it buf0 D tr).1 = some (0, some err)) ∧
        ∀ k p ok, Event.checkpoint k p ok ∈ (RuncPreDump.loop w remaining i it buf0 D tr).2 →
          k ≤ j) := by
  induction remaining with
  | zero =>
    intro i it buf0 D tr hH hS hB
    exact ⟨hH, fun _ _ => hS, fun j hj => absurd hj (not_failedAt_of_succeeded hS j)⟩
  | succ remaining ih =>
    intro i it buf0 D tr hH hS hB
    have hH1 := honest_snoc_checkpoint hH i (some (i - 1))
    have hB1 : ∀ k p ok, Event.checkpoint k p ok ∈ tr ++ [Event.checkpoint i (some (i - 1)) (w.runc i)] →
        k ≤ i := by
      intro k p ok hk
      rcases List.mem_append.1 hk with hk | hk
      · exact Nat.le_of_lt (hB k p ok hk)
      · simp at hk; omega
    unfold RuncPreDump.loop
    simp only []
    by_cases hok : w.runc i = false
    · rw [if_pos hok]
      refine ⟨hH1, fun n hn => by simp at hn, fun j hj => ?_⟩
      rcases failedAt_snoc hS hj with ⟨p, hp⟩ | ⟨v, err, hp⟩
      · simp at hp
        refine ⟨⟨_, rfl⟩, fun k q ok hk => ?_⟩
        rw [← hp.1]; exact hB1 k q ok hk
      · simp at hp
    · rw [if_neg hok]
      have hok1 : w.runc i = true := by simpa using hok
      rw [hok1] at hH1 hB1 ⊢
      have hS1 := succeeded_snoc_checkpoint hS i (some (i - 1))
      have hH2 := honest_snoc_measure hH1 i
      have hB2 : ∀ k p ok, Event.checkpoint k p ok ∈
          tr ++ [Event.checkpoint i (some (i - 1)) true] ++
            [Event.measure i (GetDirtyPagesSize (w.readDir i))] → k ≤ i := by
        intro k p ok hk
        rcases List.mem_append.1 hk with hk | hk
        · exact hB1 k p ok hk
        · simp at hk
      cases hm : (GetDirtyPagesSize (w.readDir i)).2 with
      | some err =>
        simp only []
        refine ⟨hH2, fun n hn => by simp at hn, fun j hj => ?_⟩
        rcases failedAt_snoc hS1 hj with ⟨p, hp⟩ | ⟨v, err, hp⟩
        · simp at hp
        · simp at hp
          refine ⟨⟨_, rfl⟩, fun k q ok hk => ?_⟩
          rw [← hp.1]; exact hB2 k q ok hk
      | none =>
        simp only []
        have hS2 := succeeded_snoc_measure hS1 i _ hm
        generalize hans : BreakOrNot (D ++ [percentageChange buf0 (GetDirtyPagesSize (w.readDir i)).1])
          (GetDirtyPagesSize (w.readDir i)).1 = answer
        have hH3 := honest_snoc_ask hH2 (D ++ [percentageChange buf0 (GetDirtyPagesSize (w.readDir i)).1])
          (GetDirtyPagesSize (w.readDir i)).1 answer
        have hS3 := succeeded_snoc_ask hS2 (D ++ [percentageChange buf0 (GetDirtyPagesSize (w.readDir i)).1])
          (GetDirtyPagesSize (w.readDir i)).1 answer
        rcases answer with _ | _ | _
        · exact ⟨hH3, fun n hn => by simp at hn,
            fun j hj => absurd hj (not_failedAt_of_succeeded hS3 j)⟩
        · simp only []
          refine ih (i + 1) i _ D _ hH3 hS3 ?_
          intro k p ok hk
          rcases List.mem_append.1 hk with hk | hk
          · exact Nat.lt_succ_of_le (hB2 k p ok hk)
          · simp at hk
        · exact ⟨hH3, fun n _ => hS3,
            fun j hj => absurd hj (not_failedAt_of_succeeded hS3 j)⟩

/-- The loop only adds steps at the end of the trace it is given. -/
theorem loop_trace_extends (w : World) (remaining : Nat) :
    ∀ (i it : Nat) (buf0 : F64) (D : List F64) (tr : List Event),
      ∃ more, (RuncPreDump.loop w remaining i it buf0 D tr).2 = tr ++ more := by
  induction remaining with
  | zero => intro i it buf0 D tr; exact ⟨[], by simp [RuncPreDump.loop]⟩
  | succ remaining ih =>
    intro i it buf0 D tr
    unfold RuncPreDump.loop
    simp only []
    split
    · exact ⟨_, rfl⟩
    · split
      · exact ⟨_, by rw [List.append_assoc]⟩
      · split
        · exact ⟨_, by rw [List.append_assoc, List.append_assoc]⟩
        · exact ⟨_, by rw [List.append_assoc, List.append_assoc]⟩
        · obtain ⟨more, hmore⟩ := ih (i + 1) i
            (GetDirtyPagesSize (w.readDir i)).1 D
            (tr ++ [Event.checkpoint i (some (i - 1)) (w.runc i)] ++
              [Event.measure i (GetDirtyPagesSize (w.readDir i))] ++
              [Event.ask (D ++ [percentageChange buf0 (GetDirtyPagesSize (w.readDir i)).1])
                (GetDirtyPagesSize (w.readDir i)).1
                (BreakOrNot (D ++ [percentageChange buf0 (GetDirtyPagesSize (w.readDir i)).1])
                  (GetDirtyPagesSize (w.readDir i)).1)])
          exact ⟨_, by rw [hmore, List.append_assoc, List.append_assoc, List.append_assoc]⟩

/-- Every question put to the policy by the loop carries the slice declared before the loop
with one value appended, and is answered without a panic when that slice is empty. -/
theorem loop_asks (w : World) (remaining : Nat) :
    ∀ (i it : Nat) (buf0 : F64) (tr : List Event),
      (∀ H s a, Event.ask H s a ∈ tr → H.length = 1 ∧ a = BreakOrNot H s) →
      (∀ H s a, Event.ask H s a ∈ (RuncPreDump.loop w remaining i it buf0 [] tr).2 →
        H.length = 1 ∧ a = BreakOrNot H s) ∧
      (RuncPreDump.loop w remaining i it buf0 [] tr).1 ≠ none := by
  induction remaining with
  | zero => intro i it buf0 tr h; exact ⟨h, by simp [RuncPreDump.loop]⟩
  | succ remaining ih =>
    intro i it buf0 tr h
    have h1 : ∀ (e : Event), (∀ H s a, e ≠ Event.ask H s a) →
        ∀ tr0 : List Event, (∀ H s a, Event.ask H s a ∈ tr0 → H.length = 1 ∧ a = BreakOrNot H s) →
        ∀ H s a, Event.ask H s a ∈ tr0 ++ [e] → H.length = 1 ∧ a = BreakOrNot H s := by
      intro e he tr0 h0 H s a hm
      rcases List.mem_append.1 hm with hm | hm
      · exact h0 H s a hm
      · exact absurd (List.mem_singleton.1 hm).symm (he H s a)
    have h2 : ∀ x s, ∀ tr0 : List Event,
        (∀ H s a, Event.ask H s a ∈ tr0 → H.length = 1 ∧ a = BreakOrNot H s) →
        ∀ H s' a, Event.ask H s' a ∈ tr0 ++ [Event.ask [x] s (BreakOrNot [x] s)] →
          H.length = 1 ∧ a = BreakOrNot H s' := by
      intro x s tr0 h0 H s' a hm
      rcases List.mem_append.1 hm with hm | hm
      · exact h0 H s' a hm
      · simp at hm
        obtain ⟨rfl, rfl, rfl⟩ := hm
        exact ⟨rfl, rfl⟩
    have hc := h1 (Event.checkpoint i (some (i - 1)) (w.runc i)) (by simp) tr h
    have hm := h1 (Event.measure i (GetDirtyPagesSize (w.readDir i))) (by simp) _ hc
    have ha := h2 (percentageChange buf0 (GetDirtyPagesSize (w.readDir i)).1)
      (GetDirtyPagesSize (w.readDir i)).1 _ hm
    have hnp : ∀ x s, BreakOrNot [x] s ≠ none := by
      intro x s
      unfold BreakOrNot
      split
      · simp
      · simp
    unfold RuncPreDump.loop
    simp only [List.nil_append]
    split
    · exact ⟨hc, by simp⟩
    · split
      · exact ⟨hm, by simp⟩
      · split
        · rename_i hb
          exact absurd hb (hnp _ _)
        · exact ⟨ha, by simp⟩
        · exact ih (i + 1) i _ _ ha

/-- What the trace of a run says: (1) when the command or the measurement of an iteration `j`
is recorded as failed, `RuncPreDump` returns an error with the count `0`, and no checkpoint
command of an iteration after `j` was run; (2) when it returns without error, every command and
every measurement it performed succeeded; (3) the recorded outcomes are those of the world;
(4) the command of iteration 1 is always run. -/
theorem RuncPreDump_trace_sound (w : World) (topPreDumpTimes : Int) :
    (∀ j, FailedAt j (RuncPreDump w topPreDumpTimes).2 →
      (∃ err, (RuncPreDump w topPreDumpTimes).1 = some (0, some err)) ∧
      ∀ k p ok, Event.checkpoint k p ok ∈ (RuncPreDump w topPreDumpTimes).2 → k ≤ j) ∧
    (∀ n, (RuncPreDump w topPreDumpTimes).1 = some (n, none) →
      TraceSucceeded (RuncPreDump w topPreDumpTimes).2) ∧
    TraceHonest w (RuncPreDump w topPreDumpTimes).2 ∧
    Event.checkpoint 1 none (w.runc 1) ∈ (RuncPreDump w topPreDumpTimes).2 := by
  have hH0 : TraceHonest w [] := ⟨fun _ _ _ h => by simp at h, fun _ _ h => by simp at h⟩
  have hS0 : TraceSucceeded [] := ⟨fun _ _ _ h => by simp at h, fun _ _ h => by simp at h⟩
  have hH1 := honest_snoc_checkpoint hH0 1 none
  have hB1 : ∀ k p ok, Event.checkpoint k p ok ∈ [] ++ [Event.checkpoint 1 none (w.runc 1)] →
      k ≤ 1 := by
    intro k p ok hk
    simp at hk; omega
  simp only [List.nil_append] at hH1 hB1
  unfold RuncPreDump
  simp only []
  by_cases hok : w.runc 1 = false
  · rw [if_pos hok]
    refine ⟨fun j hj => ?_, fun n hn => by simp at hn, hH1, by simp⟩
    rcases @failedAt_snoc [] hS0 j _ hj with ⟨p, hp⟩ | ⟨v, err, hp⟩
    · simp at hp
      refine ⟨⟨_, rfl⟩, fun k q ok hk => ?_⟩
      rw [← hp.1]; exact hB1 k q ok hk
    · simp at hp
  · rw [if_neg hok]
    have hok1 : w.runc 1 = true := by simpa using hok
    rw [hok1] at hH1 hB1 ⊢
    have hS1 := succeeded_snoc_checkpoint hS0 1 none
    have hH2 := honest_snoc_measure hH1 1
    simp only [List.nil_append] at hS1
    have hB2 : ∀ k p ok, Event.checkpoint k p ok ∈
        [Event.checkpoint 1 none true] ++
          [Event.measure 1 (GetDirtyPagesSize (w.readDir 1))] → k ≤ 1 := by
      intro k p ok hk
      rcases List.mem_append.1 hk with hk | hk
      · exact hB1 k p ok hk
      · simp at hk
    cases hm : (GetDirtyPagesSize (w.readDir 1)).2 with
    | some err =>
      simp only []
      refine ⟨fun j hj => ?_, fun n hn => by simp at hn, hH2, by simp⟩
      rcases failedAt_snoc hS1 hj with ⟨p, hp⟩ | ⟨v, err, hp⟩
      · simp at hp
      · simp at hp
        refine ⟨⟨_, rfl⟩, fun k q ok hk => ?_⟩
        rw [← hp.1]; exact hB2 k q ok hk
    | none =>
      simp only []
      have hS2 := succeeded_snoc_measure hS1 1 _ hm
      have h := loop_sound w (topPreDumpTimes - 1).toNat 2 1 (GetDirtyPagesSize (w.readDir 1)).1 []
        _ hH2 hS2 (fun k p ok hk => Nat.lt_succ_of_le (hB2 k p ok hk))
      refine ⟨h.2.2, h.2.1, h.1, ?_⟩
      obtain ⟨more, hmore⟩ := loop_trace_extends w (topPreDumpTimes - 1).toNat 2 1
        (GetDirtyPagesSize (w.readDir 1)).1 []
        ([Event.checkpoint 1 none true] ++ [Event.measure 1 (GetDirtyPagesSize (w.readDir 1))])
      rw [hmore]
      simp

/-- Every question the driver puts to the policy carries a history of exactly one value. -/
theorem RuncPreDump_asks (w : World) (topPreDumpTimes : Int) (H : List F64) (s : F64)
    (a : Option Bool) (h : Event.ask H s a ∈ (RuncPreDump w topPreDumpTimes).2) :
    H.length = 1 ∧ a = BreakOrNot H s := by
  revert H s a
  unfold RuncPreDump
  simp only []
  split
  · intro H s a h; simp at h
  · split
    · intro H s a h; simp at h
    · intro H s a h
      exact (loop_asks w _ 2 1 _ _ (by intro H s a h; simp at h)).1 H s a h

/-- The driver never panics. -/
theorem RuncPreDump_returns (w : World) (topPreDumpTimes : Int) :
    (RuncPreDump w topPreDumpTimes).1 ≠ none := by
  unfold RuncPreDump
  simp only []
  split
  · simp
  · split
    · simp
    · exact (loop_asks w _ 2 1 _ _ (by intro H s a h; simp at h)).2

/-- The loop gets to the first iteration whose command or measurement fails in the world, when
the iterations before it succeeded and measured a size not below the floor, and records the
failure. -/
theorem loop_records_failure (w : World) (j : Nat)
    (hfail : w.runc j = false ∨ (GetDirtyPagesSize (w.readDir j)).2 ≠ none) (remaining : Nat) :
    ∀ (i it : Nat) (buf0 : F64) (tr : List Event), 2 ≤ i → i ≤ j → j < i + remaining →
      (∀ l, i ≤ l → l < j → w.runc l = true ∧ (GetDirtyPagesSize (w.readDir l)).2 = none ∧
        F64.lt (GetDirtyPagesSize (w.readDir l)).1 (F64.fin 2) = false) →
      FailedAt j (RuncPreDump.loop w remaining i it buf0 [] tr).2 := by
  induction remaining with
  | zero => intro i it buf0 tr _ h1 h2; omega
  | succ remaining ih =>
    intro i it buf0 tr h2 h1 hlt hbefore
    unfold RuncPreDump.loop
    simp only [List.nil_append]
    rcases Nat.eq_or_lt_of_le h1 with heq | hlt'
    · subst heq
      by_cases hok : w.runc i = false
      · rw [if_pos hok, hok]
        exact Or.inl ⟨some (i - 1), by simp⟩
      · rw [if_neg hok]
        rcases hfail with h | h
        · exact absurd h hok
        · cases hm : (GetDirtyPagesSize (w.readDir i)).2 with
          | none => exact absurd hm h
          | some err =>
            simp only []
            refine Or.inr ⟨(GetDirtyPagesSize (w.readDir i)).1, err, ?_⟩
            have : GetDirtyPagesSize (w.readDir i) = ((GetDirtyPagesSize (w.readDir i)).1, some err) := by
              rw [← hm]
            rw [← this]
            simp
    · obtain ⟨hr, hm, hs⟩ := hbefore i (Nat.le_refl i) hlt'
      have hb := BreakOrNot_short [percentageChange buf0 (GetDirtyPagesSize (w.readDir i)).1]
        (GetDirtyPagesSize (w.readDir i)).1 hs (by simp)
      simp only [hr, hm, hb, Bool.true_eq_false, if_false]
      exact ih (i + 1) i _ _ (by omega) (by omega) (by omega)
        (fun l hl hl' => hbefore l (by omega) hl')

/-- The driver gets to the first iteration `j` whose command or measurement fails in the
world (`j = 1`, or `2 ≤ j ≤ topPreDumpTimes` with every earlier iteration successful and
measuring a size not below the floor), and records the failure. -/
theorem RuncPreDump_records_failure (w : World) (topPreDumpTimes : Int) (j : Nat) (hj : 1 ≤ j)
    (hreach : j = 1 ∨ (j : Int) ≤ topPreDumpTimes)
    (hbefore : ∀ l, 1 ≤ l → l < j → w.runc l = true ∧
      (GetDirtyPagesSize (w.readDir l)).2 = none ∧
      (2 ≤ l → F64.lt (GetDirtyPagesSize (w.readDir l)).1 (F64.fin 2) = false))
    (hfail : w.runc j = false ∨ (GetDirtyPagesSize (w.readDir j)).2 ≠ none) :
    FailedAt j (RuncPreDump w topPreDumpTimes).2 := by
  unfold RuncPreDump
  simp only []
  rcases Nat.eq_or_lt_of_le hj with heq | hlt
  · subst heq
    by_cases hok : w.runc 1 = false
    · rw [if_pos hok, hok]
      exact Or.inl ⟨none, by simp⟩
    · rw [if_neg hok]
      rcases hfail with h | h
      · exact absurd h hok
      · cases hm : (GetDirtyPagesSize (w.readDir 1)).2 with
        | none => exact absurd hm h
        | some err =>
          simp only []
          refine Or.inr ⟨(GetDirtyPagesSize (w.readDir 1)).1, err, ?_⟩
          have : GetDirtyPagesSize (w.readDir 1) = ((GetDirtyPagesSize (w.readDir 1)).1, some err) := by
            rw [← hm]
          rw [← this]
          simp
  · obtain ⟨hr, hm, _⟩ := hbefore 1 (Nat.le_refl 1) hlt
    have htop : (j : Int) ≤ topPreDumpTimes := by
      rcases hreach with h | h
      · omega
      · exact h
    simp only [hr, hm, Bool.true_eq_false, if_false]
    exact loop_records_failure w j hfail _ 2 1 _ _ (Nat.le_refl 2) (by omega) (by omega)
      (fun l hl hl' => ⟨(hbefore l (by omega) hl').1, (hbefore l (by omega) hl').2.1,
        (hbefore l (by omega) hl').2.2 hl⟩)

/-- A run of the loop that ends without error has performed the iterations up to the count it
returns, and in the world every one of them succeeded. -/
theorem loop_success (w : World) (remaining : Nat) :
    ∀ (i it : Nat) (buf0 : F64) (D : List F64) (tr : List Event), 1 ≤ it → it + 1 = i →
      (∀ l, 1 ≤ l → l ≤ it →
        w.runc l = true ∧ (GetDirtyPagesSize (w.readDir l)).2 = none) →
      (∀ k p ok, Event.checkpoint k p ok ∈ tr → k ≤ it) →
      ∀ n, (RuncPreDump.loop w remaining i it buf0 D tr).1 = some (n, none) →
        1 ≤ n ∧
        (∀ l, 1 ≤ l → l ≤ n →
          w.runc l = true ∧ (GetDirtyPagesSize (w.readDir l)).2 = none) ∧
        ∀ k p ok, Event.checkpoint k p ok ∈ (RuncPreDump.loop w remaining i it buf0 D tr).2 →
          k ≤ n := by
  induction remaining with
  | zero =>
    intro i it buf0 D tr h1 _ hok hev n hn
    simp only [RuncPreDump.loop, Option.some.injEq, Prod.mk.injEq, and_true] at hn
    subst hn
    exact ⟨h1, hok, hev⟩
  | succ remaining ih =>
    intro i it buf0 D tr h1 hi hok hev n
    unfold RuncPreDump.loop
    simp only []
    by_cases hr : w.runc i = false
    · rw [if_pos hr]
      intro hn
      simp at hn
    · rw [if_neg hr]
      have hr1 : w.runc i = true := by simpa using hr
      cases hm : (GetDirtyPagesSize (w.readDir i)).2 with
      | some err =>
        simp only []
        intro hn
        simp at hn
      | none =>
        simp only []
        have hok' : ∀ l, 1 ≤ l → l ≤ i →
            w.runc l = true ∧ (GetDirtyPagesSize (w.readDir l)).2 = none := by
          intro l hl hli
          rcases Nat.eq_or_lt_of_le hli with heq | hlt
          · rw [heq]; exact ⟨hr1, hm⟩
          · exact hok l hl (by omega)
        have hev' : ∀ k p ok, Event.checkpoint k p ok ∈
            tr ++ [Event.checkpoint i (some (i - 1)) (w.runc i)] ++
              [Event.measure i (GetDirtyPagesSize (w.readDir i))] ++
              [Event.ask (D ++ [percentageChange buf0 (GetDirtyPagesSize (w.readDir i)).1])
                (GetDirtyPagesSize (w.readDir i)).1
                (BreakOrNot (D ++ [percentageChange buf0 (GetDirtyPagesSize (w.readDir i)).1])
                  (GetDirtyPagesSize (w.readDir i)).1)] → k ≤ i := by
          intro k p ok hk
          simp only [List.mem_append, List.mem_singleton, Event.checkpoint.injEq, reduceCtorEq,
            or_false] at hk
          rcases hk with hk | hk
          · have := hev k p ok hk
            omega
          · omega
        cases hans : BreakOrNot (D ++ [percentageChange buf0 (GetDirtyPagesSize (w.readDir i)).1])
            (GetDirtyPagesSize (w.readDir i)).1 with
        | none =>
          simp only []
          intro hn
          simp at hn
        | some b =>
          cases b with
          | true =>
            simp only []
            intro hn
            simp only [Option.some.injEq, Prod.mk.injEq, and_true] at hn
            subst hn
            rw [hans] at hev'
            exact ⟨by omega, hok', hev'⟩
          | false =>
            simp only []
            rw [hans] at hev'
            exact ih (i + 1) i _ D _ (by omega) rfl hok' hev' n

/-- A run of the driver that ends without error has performed the iterations up to the count it
returns, and in the world every one of them succeeded. -/
theorem RuncPreDump_success (w : World) (topPreDumpTimes : Int) (n : Nat)
    (hn : (RuncPreDump w topPreDumpTimes).1 = some (n, none)) :
    1 ≤ n ∧
    (∀ l, 1 ≤ l → l ≤ n → w.runc l = true ∧ (GetDirtyPagesSize (w.readDir l)).2 = none) ∧
    ∀ k p ok, Event.checkpoint k p ok ∈ (RuncPreDump w topPreDumpTimes).2 → k ≤ n := by
  revert hn
  unfold RuncPreDump
  simp only []
  by_cases hr : w.runc 1 = false
  · rw [if_pos hr]
    intro hn
    simp at hn
  · rw [if_neg hr]
    have hr1 : w.runc 1 = true := by simpa using hr
    cases hm : (GetDirtyPagesSize (w.readDir 1)).2 with
    | some err =>
      simp only []
      intro hn
      simp at hn
    | none =>
      simp only []
      refine loop_success w _ 2 1 _ [] _ (Nat.le_refl 1) rfl ?_ ?_ n
      · intro l hl hl1
        have : l = 1 := by omega
        rw [this]
        exact ⟨hr1, hm⟩
      · intro k p ok hk
        simp only [List.mem_append, List.mem_singleton, Event.checkpoint.injEq, reduceCtorEq,
          or_false, List.mem_cons, List.not_mem_nil] at hk
        omega

/-- C8: with the checkpoint tool and the listing of the image directories as oracles of the
world `w`: (1) when the command or the measurement of iteration `j` fails in the world, for
`j = 1` or `2 ≤ j ≤ topPreDumpTimes`, and the driver gets to `j` (every earlier iteration
succeeded and measured a size not below the floor, so that the policy did not stop it),
`RuncPreDump` returns an error with the count `0`, and it ran no checkpoint command of an
iteration after `j`; (2) when it returns the count `n` without error, the commands and the
measurements of the iterations 1 to `n` all succeeded in the world, and it ran no checkpoint
command after `n`; (3) the same on the trace: a step recorded as failed ends the run with an
error, the count `0` and no later command, a run without error records only successes, the
recorded outcomes are those of the world, and the command of iteration 1 is always run. -/
theorem RuncPreDump_failure_aborts (w : World) (topPreDumpTimes : Int) :
    (∀ j : Nat, 1 ≤ j → (j = 1 ∨ (j : Int) ≤ topPreDumpTimes) →
      (∀ l : Nat, 1 ≤ l → l < j → w.runc l = true ∧
        (GetDirtyPagesSize (w.readDir l)).2 = none ∧
        (2 ≤ l → F64.lt (GetDirtyPagesSize (w.readDir l)).1 (F64.fin 2) = false)) →
      (w.runc j = false ∨ (GetDirtyPagesSize (w.readDir j)).2 ≠ none) →
      (∃ err, (RuncPreDump w topPreDumpTimes).1 = some (0, some err)) ∧
      ∀ k p ok, Event.checkpoint k p ok ∈ (RuncPreDump w topPreDumpTimes).2 → k ≤ j) ∧
    (∀ n, (RuncPreDump w topPreDumpTimes).1 = some (n, none) →
      1 ≤ n ∧
      (∀ l, 1 ≤ l → l ≤ n →
        w.runc l = true ∧ (GetDirtyPagesSize (w.readDir l)).2 = none) ∧
      ∀ k p ok, Event.checkpoint k p ok ∈ (RuncPreDump w topPreDumpTimes).2 → k ≤ n) ∧
    (∀ j, FailedAt j (RuncPreDump w topPreDumpTimes).2 →
      (∃ err, (RuncPreDump w topPreDumpTimes).1 = some (0, some err)) ∧
      ∀ k p ok, Event.checkpoint k p ok ∈ (RuncPreDump w topPreDumpTimes).2 → k ≤ j) ∧
    (∀ n, (RuncPreDump w topPreDumpTimes).1 = some (n, none) →
      TraceSucceeded (RuncPreDump w topPreDumpTimes).2) ∧
    TraceHonest w (RuncPreDump w topPreDumpTimes).2 ∧
    Event.checkpoint 1 none (w.runc 1) ∈ (RuncPreDump w topPreDumpTimes).2 := by
  have ht := RuncPreDump_trace_sound w topPreDumpTimes
  refine ⟨fun j hj hreach hbefore hfail => ?_, fun n hn => RuncPreDump_success w _ n hn, ht⟩
  exact ht.1 j (RuncPreDump_records_failure w topPreDumpTimes j hj hreach hbefore hfail)

/-- The measurement in a world of given sizes, for a size that is at most `2^53`. -/
theorem GetDirtyPagesSize_worldOfSizes (sizes : Nat → Nat) (i : Nat) (h : sizes i ≤ 2 ^ 53) :
    GetDirtyPagesSize ((worldOfSizes sizes).readDir i) = (F64.fin (sizes i), none) := by
  have hdir : (worldOfSizes sizes).readDir i =
      some ([("parent", 0), ("pages-1.img", sizes i * 1024 * 1024)].map
        fun e => ⟨e.1, some e.2⟩) := rfl
  have hpage : IsPageImageName "pages-1.img" := by decide
  have hsum : (([("parent", 0), ("pages-1.img", sizes i * 1024 * 1024)].filter
      fun e : String × Nat => decide (IsPageImageName e.1)).map
        fun e => e.2 / 1024 / 1024).sum = sizes i := by
    simp only [List.filter_cons, not_isPageImageName_parent, hpage, decide_True, decide_False,
      Bool.false_eq_true, if_false, if_true, List.filter_nil, List.map_cons, List.map_nil,
      List.sum_cons, List.sum_nil, Nat.add_zero]
    omega
  have hl := loop_eq_sum [("parent", 0), ("pages-1.img", sizes i * 1024 * 1024)] 0
    (by rw [hsum]; omega)
  rw [hsum] at hl
  rw [hdir, GetDirtyPagesSize]
  simpa using hl

/-- The percentage change between two whole sizes is exact when it is a whole number and
`100 * (a - b)` is at most `2^53`. -/
theorem percentageChange_exact (a b q : ℕ) (hab : b ≤ a) (ha : 0 < a)
    (hq : 100 * (a - b) = q * a) (hbound : 100 * (a - b) ≤ 2 ^ 53) :
    percentageChange (F64.fin a) (F64.fin b) = F64.fin q := by
  have h1 : F64.sub (F64.fin a) (F64.fin b) = F64.fin ((a - b : ℕ) : ℚ) := by
    have e : (a : ℚ) + -(b : ℚ) = ((a - b : ℕ) : ℚ) := by
      rw [Nat.cast_sub hab]; ring
    simp only [F64.sub, F64.neg, F64.add]
    rw [e]
    exact F64.round_natCast _ (by omega)
  have h2 : F64.mul (F64.fin 100) (F64.fin ((a - b : ℕ) : ℚ)) =
      F64.fin ((100 * (a - b) : ℕ) : ℚ) := by
    have e : (100 : ℚ) * ((a - b : ℕ) : ℚ) = ((100 * (a - b) : ℕ) : ℚ) := by
      rw [Nat.cast_mul]; rfl
    simp only [F64.mul]
    rw [e]
    exact F64.round_natCast _ hbound
  have haq : (a : ℚ) ≠ 0 := by exact_mod_cast (Nat.pos_iff_ne_zero.1 ha)
  have hqle : q ≤ 2 ^ 53 := by
    have : q ≤ q * a := Nat.le_mul_of_pos_right q ha
    omega
  have h3 : F64.div (F64.fin ((100 * (a - b) : ℕ) : ℚ)) (F64.fin a) = F64.fin q := by
    have e : ((100 * (a - b) : ℕ) : ℚ) / (a : ℚ) = (q : ℚ) := by
      rw [hq, Nat.cast_mul, mul_div_assoc, div_self haq, mul_one]
    simp only [F64.div]
    rw [if_neg haq, e]
    exact F64.round_natCast _ hqle
  unfold percentageChange
  rw [h1, h2, h3]
  simp only [F64.abs, Nat.abs_cast]

theorem percentageChange_100_50 :
    percentageChange (F64.fin 100) (F64.fin 50) = F64.fin 50 :=
  percentageChange_exact 100 50 50 (by norm_num) (by norm_num) (by norm_num) (by norm_num)

theorem percentageChange_50_40 :
    percentageChange (F64.fin 50) (F64.fin 40) = F64.fin 20 :=
  percentageChange_exact 50 40 20 (by norm_num) (by norm_num) (by norm_num) (by norm_num)

theorem percentageChange_100_100 :
    percentageChange (F64.fin 100) (F64.fin 100) = F64.fin 0 :=
  percentageChange_exact 100 100 0 (by norm_num) (by norm_num) (by norm_num) (by norm_num)

/-- C10: with the sizes 100, 50 and 40 megabytes and at most three iterations, the percentage
changes are 50 and then 20; at iteration 3 the driver asks `BreakOrNot` with the history `[20]`,
not with `[50, 20]`: the value computed at iteration 2 was appended to a variable that is
local to that round of the loop. -/
theorem RuncPreDump_shrinking :
    RuncPreDump (worldOfSizes shrinkingSizes) 3 =
      (some (3, none),
        [Event.checkpoint 1 none true, Event.measure 1 (F64.fin 100, none),
         Event.checkpoint 2 (some 1) true, Event.measure 2 (F64.fin 50, none),
         Event.ask [F64.fin 50] (F64.fin 50) (some false),
         Event.checkpoint 3 (some 2) true, Event.measure 3 (F64.fin 40, none),
         Event.ask [F64.fin 20] (F64.fin 40) (some false)]) := by
  have h1 : (worldOfSizes shrinkingSizes).runc = fun _ => true := rfl
  have hm1 : GetDirtyPagesSize ((worldOfSizes shrinkingSizes).readDir 1) = (F64.fin 100, none) :=
    GetDirtyPagesSize_worldOfSizes shrinkingSizes 1 (by decide)
  have hm2 : GetDirtyPagesSize ((worldOfSizes shrinkingSizes).readDir 2) = (F64.fin 50, none) :=
    GetDirtyPagesSize_worldOfSizes shrinkingSizes 2 (by decide)
  have hm3 : GetDirtyPagesSize ((worldOfSizes shrinkingSizes).readDir 3) = (F64.fin 40, none) :=
    GetDirtyPagesSize_worldOfSizes shrinkingSizes 3 (by decide)
  have hb2 : BreakOrNot [F64.fin 50] (F64.fin 50) = some false := by decide
  have hb3 : BreakOrNot [F64.fin 20] (F64.fin 40) = some false := by decide
  have htop : ((3 : ℤ) - 1).toNat = 2 := by decide
  simp only [RuncPreDump, h1, hm1, htop]
  simp only [RuncPreDump.loop, h1, hm2, hm3, percentageChange_100_50, percentageChange_50_40,
    hb2, hb3, List.nil_append, List.cons_append, Bool.true_eq_false, if_false, Nat.reduceAdd,
    Nat.reduceSub]

/-- The measurement in the world whose third command fails. -/
theorem GetDirtyPagesSize_worldFailingAtThree (i : Nat) :
    GetDirtyPagesSize (worldFailingAtThree.readDir i) = (F64.fin 100, none) := by
  have hdir : worldFailingAtThree.readDir i =
      some ([("pages-1.img", 100 * 1024 * 1024)].map fun e => ⟨e.1, some e.2⟩) := rfl
  have hl := loop_eq_sum [("pages-1.img", 100 * 1024 * 1024)] 0 (by decide)
  rw [hdir, GetDirtyPagesSize]
  exact hl.trans (by decide)

/-- The run in a world whose third checkpoint command fails. -/
theorem RuncPreDump_failingAtThree :
    RuncPreDump worldFailingAtThree 5 =
      (some (0, some (GoError.runc 3)),
        [Event.checkpoint 1 none true, Event.measure 1 (F64.fin 100, none),
         Event.checkpoint 2 (some 1) true, Event.measure 2 (F64.fin 100, none),
         Event.ask [F64.fin 0] (F64.fin 100) (some false),
         Event.checkpoint 3 (some 2) false]) := by
  have h1 : worldFailingAtThree.runc 1 = true := rfl
  have h2 : worldFailingAtThree.runc 2 = true := rfl
  have h3 : worldFailingAtThree.runc 3 = false := rfl
  have hb2 : BreakOrNot [F64.fin 0] (F64.fin 100) = some false := by decide
  have htop : ((5 : ℤ) - 1).toNat = 4 := by decide
  simp only [RuncPreDump, h1, GetDirtyPagesSize_worldFailingAtThree, htop]
  simp only [RuncPreDump.loop, h2, h3, GetDirtyPagesSize_worldFailingAtThree,
    percentageChange_100_100, hb2, List.nil_append, List.cons_append, Bool.true_eq_false,
    if_false, if_true, Nat.reduceAdd, Nat.reduceSub]

/-- In the world whose third checkpoint command fails, with at most five iterations, the
driver returns an error with the count 0 and runs no command after the third. -/
theorem RuncPreDump_failure_aborts_witness :
    (∃ err, (RuncPreDump worldFailingAtThree 5).1 = some (0, some err)) ∧
    ∀ k p ok, Event.checkpoint k p ok ∈ (RuncPreDump worldFailingAtThree 5).2 → k ≤ 3 :=
  (RuncPreDump_failure_aborts worldFailingAtThree 5).1 3 (by decide) (Or.inr (by decide))
    (fun l h1 h3 => by
      have hl : l = 1 ∨ l = 2 := by omega
      rcases hl with rfl | rfl
      · exact ⟨rfl, by rw [GetDirtyPagesSize_worldFailingAtThree],
          fun _ => by rw [GetDirtyPagesSize_worldFailingAtThree]; decide⟩
      · exact ⟨rfl, by rw [GetDirtyPagesSize_worldFailingAtThree],
          fun _ => by rw [GetDirtyPagesSize_worldFailingAtThree]; decide⟩)
    (Or.inl rfl)

/-! ## Theorems: migration coordinator -/

/-- C1: when the pod registry does not know the UID of the request the response status is 404,
and when the pod is known and its phase is not Running the status is 409; in both cases the
map of migrations is unchanged and the dispatch hook is not called. -/
theorem HandleTargetKubeletRequest_rejects (k : Kubelet) (m : migrationManager) (req : Request) :
    (k.GetPodByUID req.podUID = none →
      (HandleTargetKubeletRequest k m req Response.fresh).response.status = some 404 ∧
      (HandleTargetKubeletRequest k m req Response.fresh).manager.migrations = m.migrations ∧
      ∀ pod, HEvent.dispatch pod ∉ (HandleTargetKubeletRequest k m req Response.fresh).trace) ∧
    (∀ pod, k.GetPodByUID req.podUID = some pod → pod.Phase ≠ PodRunning →
      (HandleTargetKubeletRequest k m req Response.fresh).response.status = some 409 ∧
      (HandleTargetKubeletRequest k m req Response.fresh).manager.migrations = m.migrations ∧
      ∀ pod, HEvent.dispatch pod ∉ (HandleTargetKubeletRequest k m req Response.fresh).trace) := by
  constructor
  · intro h
    simp [HandleTargetKubeletRequest, h, Response.WriteHeader, Response.fresh, StatusNotFound]
  · intro pod h hph
    simp [HandleTargetKubeletRequest, h, hph, Response.WriteHeader, Response.fresh,
      StatusConflict]

/-- An unknown UID is answered 404 and a pending pod 409. -/
theorem HandleTargetKubeletRequest_rejects_witness :
    ((HandleTargetKubeletRequest exampleKubelet (NewMigrationManager exampleKubelet "/var/lib/kubelet")
        ⟨"uid-9", "c1,c2"⟩ Response.fresh).response.status = some 404) ∧
    ((HandleTargetKubeletRequest exampleKubelet (NewMigrationManager exampleKubelet "/var/lib/kubelet")
        ⟨"uid-2", "c1,c2"⟩ Response.fresh).response.status = some 409) :=
  ⟨((HandleTargetKubeletRequest_rejects exampleKubelet _ ⟨"uid-9", "c1,c2"⟩).1 (by decide)).1,
   ((HandleTargetKubeletRequest_rejects exampleKubelet _ ⟨"uid-2", "c1,c2"⟩).2
      ⟨"uid-2", "db", "Pending"⟩ (by decide) (by decide)).1⟩

/-- The steps of a call for an accepted request are the first two, the first five or all six
of one fixed sequence. -/
theorem HandleTargetKubeletRequest_trace (k : Kubelet) (m : migrationManager) (req : Request)
    (pod : Pod) (hpod : k.GetPodByUID req.podUID = some pod) (hrun : pod.Phase = PodRunning) :
    ∃ (p : String) (r : Result),
      ((HandleTargetKubeletRequest k m req Response.fresh).returned = false ∧
        (HandleTargetKubeletRequest k m req Response.fresh).trace =
          [HEvent.mkdirAll p, HEvent.dispatch pod]) ∨
      ((HandleTargetKubeletRequest k m req Response.fresh).returned = false ∧
        (HandleTargetKubeletRequest k m req Response.fresh).trace =
          [HEvent.mkdirAll p, HEvent.dispatch pod, HEvent.recv Chan.done,
           HEvent.writeAsJson r, HEvent.writeHeader 200]) ∨
      ((HandleTargetKubeletRequest k m req Response.fresh).returned = true ∧
        (HandleTargetKubeletRequest k m req Response.fresh).response = ⟨some 200, some r⟩ ∧
        (HandleTargetKubeletRequest k m req Response.fresh).trace =
          [HEvent.mkdirAll p, HEvent.dispatch pod, HEvent.recv Chan.done,
           HEvent.writeAsJson r, HEvent.writeHeader 200, HEvent.send Chan.unblock]) := by
  refine ⟨k.pathJoin m.migrationPath pod.UID,
    ⟨k.pathJoin m.migrationPath pod.UID,
      fillContainers k (k.pathJoin m.migrationPath pod.UID)
        ((k.syncPod pod (migration.Options ⟨k.pathJoin m.migrationPath pod.UID,
          stringsSplit req.containers ','⟩)).getD []) []⟩, ?_⟩
  simp only [HandleTargetKubeletRequest, hpod, hrun, migrationManager.newMigration, ne_eq,
    not_true_eq_false, if_false]
  cases hs : k.syncPod pod (migration.Options ⟨k.pathJoin m.migrationPath pod.UID,
      stringsSplit req.containers ','⟩) with
  | none => simp
  | some cs =>
    cases hu : k.takesUnblock pod <;>
      simp [StatusOK, Response.WriteAsJson, Response.WriteHeader, Response.fresh]

/-- The order of the steps of a call for an accepted request, read off its trace: every write
of the response comes after the receive from `done`, the send on `unblock` after the writes,
each signal is used at most once, and a call that returns used each exactly once. -/
theorem HandleTargetKubeletRequest_order_trace (k : Kubelet) (m : migrationManager) (req : Request)
    (pod : Pod) (hpod : k.GetPodByUID req.podUID = some pod) (hrun : pod.Phase = PodRunning) :
    Precedes HEvent.isReady HEvent.isResponse
      (HandleTargetKubeletRequest k m req Response.fresh).trace ∧
    Precedes HEvent.isResponse HEvent.isRelease
      (HandleTargetKubeletRequest k m req Response.fresh).trace ∧
    ((HandleTargetKubeletRequest k m req Response.fresh).trace.countP HEvent.isReady ≤ 1) ∧
    ((HandleTargetKubeletRequest k m req Response.fresh).trace.countP HEvent.isRelease ≤ 1) ∧
    (HEvent.send Chan.done ∉ (HandleTargetKubeletRequest k m req Response.fresh).trace) ∧
    (HEvent.recv Chan.unblock ∉ (HandleTargetKubeletRequest k m req Response.fresh).trace) ∧
    ((HandleTargetKubeletRequest k m req Response.fresh).returned = true →
      (HandleTargetKubeletRequest k m req Response.fresh).trace.countP HEvent.isReady = 1 ∧
      (HandleTargetKubeletRequest k m req Response.fresh).trace.countP HEvent.isRelease = 1 ∧
      ∃ (p : String) (r : Result),
        (HandleTargetKubeletRequest k m req Response.fresh).response = ⟨some 200, some r⟩ ∧
        (HandleTargetKubeletRequest k m req Response.fresh).trace =
          [HEvent.mkdirAll p, HEvent.dispatch pod, HEvent.recv Chan.done,
           HEvent.writeAsJson r, HEvent.writeHeader 200, HEvent.send Chan.unblock]) := by
  obtain ⟨p, r, h | h | h⟩ := HandleTargetKubeletRequest_trace k m req pod hpod hrun
  · rw [h.1, h.2]
    refine ⟨?_, ?_, by simp [List.countP_cons, HEvent.isReady],
      by simp [List.countP_cons, HEvent.isRelease], by simp, by simp, by simp⟩
    · intro j b hj hb
      rcases j with _ | _ | j <;> simp at hj <;> subst hj <;> simp [HEvent.isResponse] at hb
    · intro j b hj hb
      rcases j with _ | _ | j <;> simp at hj <;> subst hj <;> simp [HEvent.isRelease] at hb
  · rw [h.1, h.2]
    refine ⟨?_, ?_, by simp [List.countP_cons, HEvent.isReady],
      by simp [List.countP_cons, HEvent.isRelease], by simp, by simp, by simp⟩
    · intro j b hj hb
      rcases j with _ | _ | _ | _ | _ | j <;> simp at hj <;> subst hj <;>
        simp [HEvent.isResponse] at hb <;>
        exact ⟨2, HEvent.recv Chan.done, by omega, rfl, rfl⟩
    · intro j b hj hb
      rcases j with _ | _ | _ | _ | _ | j <;> simp at hj <;> subst hj <;>
        simp [HEvent.isRelease] at hb
  · rw [h.1, h.2.2]
    refine ⟨?_, ?_, by simp [List.countP_cons, HEvent.isReady],
      by simp [List.countP_cons, HEvent.isRelease], by simp, by simp,
      fun _ => ⟨by simp [List.countP_cons, HEvent.isReady],
        by simp [List.countP_cons, HEvent.isRelease], p, r, h.2.1, rfl⟩⟩
    · intro j b hj hb
      rcases j with _ | _ | _ | _ | _ | _ | j <;> simp at hj <;> subst hj <;>
        simp [HEvent.isResponse] at hb <;>
        exact ⟨2, HEvent.recv Chan.done, by omega, rfl, rfl⟩
    · intro j b hj hb
      rcases j with _ | _ | _ | _ | _ | _ | j <;> simp at hj <;> subst hj <;>
        simp [HEvent.isRelease] at hb
      exact ⟨3, HEvent.writeAsJson r, by omega, rfl, rfl⟩

/-- What a call for an accepted request does, by what the sync path does: while `done` is not
signalled it stays blocked after the dispatch with nothing written; once `done` is signalled
it writes the result and the status 200, and it sends on `unblock` and returns when
somebody receives. -/
theorem HandleTargetKubeletRequest_runs (k : Kubelet) (m : migrationManager) (req : Request)
    (pod : Pod) (hpod : k.GetPodByUID req.podUID = some pod) (hrun : pod.Phase = PodRunning) :
    (k.syncPod pod (migration.Options ⟨k.pathJoin m.migrationPath pod.UID,
        stringsSplit req.containers ','⟩) = none →
      (HandleTargetKubeletRequest k m req Response.fresh).returned = false ∧
      (HandleTargetKubeletRequest k m req Response.fresh).response = Response.fresh ∧
      (HandleTargetKubeletRequest k m req Response.fresh).trace =
        [HEvent.mkdirAll (k.pathJoin m.migrationPath pod.UID), HEvent.dispatch pod]) ∧
    (∀ cs, k.syncPod pod (migration.Options ⟨k.pathJoin m.migrationPath pod.UID,
        stringsSplit req.containers ','⟩) = some cs →
      (HandleTargetKubeletRequest k m req Response.fresh).response =
        ⟨some 200, some ⟨k.pathJoin m.migrationPath pod.UID,
          fillContainers k (k.pathJoin m.migrationPath pod.UID) cs []⟩⟩ ∧
      (k.takesUnblock pod = false →
        (HandleTargetKubeletRequest k m req Response.fresh).returned = false ∧
        (HandleTargetKubeletRequest k m req Response.fresh).trace =
          [HEvent.mkdirAll (k.pathJoin m.migrationPath pod.UID), HEvent.dispatch pod,
           HEvent.recv Chan.done,
           HEvent.writeAsJson ⟨k.pathJoin m.migrationPath pod.UID,
             fillContainers k (k.pathJoin m.migrationPath pod.UID) cs []⟩,
           HEvent.writeHeader 200]) ∧
      (k.takesUnblock pod = true →
        (HandleTargetKubeletRequest k m req Response.fresh).returned = true ∧
        (HandleTargetKubeletRequest k m req Response.fresh).trace =
          [HEvent.mkdirAll (k.pathJoin m.migrationPath pod.UID), HEvent.dispatch pod,
           HEvent.recv Chan.done,
           HEvent.writeAsJson ⟨k.pathJoin m.migrationPath pod.UID,
             fillContainers k (k.pathJoin m.migrationPath pod.UID) cs []⟩,
           HEvent.writeHeader 200, HEvent.send Chan.unblock])) := by
  constructor
  · intro hs
    simp [HandleTargetKubeletRequest, hpod, hrun, migrationManager.newMigration, hs]
  · intro cs hs
    refine ⟨?_, ?_, ?_⟩
    · cases hu : k.takesUnblock pod <;>
        simp [HandleTargetKubeletRequest, hpod, hrun, migrationManager.newMigration, hs, hu,
          StatusOK, Response.WriteAsJson, Response.WriteHeader, Response.fresh]
    · intro hu
      simp [HandleTargetKubeletRequest, hpod, hrun, migrationManager.newMigration, hs, hu,
        StatusOK]
    · intro hu
      simp [HandleTargetKubeletRequest, hpod, hrun, migrationManager.newMigration, hs, hu,
        StatusOK]

/-- C3 (amended): in every call of the handler for an accepted request, (1) every write of the
response comes after the receive from `done`, and the send on `unblock` comes after the writes
of the response; (2) each of the two signals is used at most once, and the handler never sends
on `done` nor receives from `unblock`; (3) a call that returns has used each signal exactly
once, in the sequence receive `done`, `WriteAsJson`, `WriteHeader(200)`, send `unblock`;
(4) while the sync path does not signal `done`, the call stays blocked after the dispatch, has
written nothing and has used neither signal; (5) when the sync path signals `done`, the call
receives it exactly once and writes the result with the status 200, and then it sends on
`unblock` exactly once and returns if somebody receives, and stays blocked without a send
recorded if nobody does. -/
theorem HandleTargetKubeletRequest_order (k : Kubelet) (m : migrationManager) (req : Request)
    (pod : Pod) (hpod : k.GetPodByUID req.podUID = some pod) (hrun : pod.Phase = PodRunning) :
    Precedes HEvent.isReady HEvent.isResponse
      (HandleTargetKubeletRequest k m req Response.fresh).trace ∧
    Precedes HEvent.isResponse HEvent.isRelease
      (HandleTargetKubeletRequest k m req Response.fresh).trace ∧
    ((HandleTargetKubeletRequest k m req Response.fresh).trace.countP HEvent.isReady ≤ 1) ∧
    ((HandleTargetKubeletRequest k m req Response.fresh).trace.countP HEvent.isRelease ≤ 1) ∧
    (HEvent.send Chan.done ∉ (HandleTargetKubeletRequest k m req Response.fresh).trace) ∧
    (HEvent.recv Chan.unblock ∉ (HandleTargetKubeletRequest k m req Response.fresh).trace) ∧
    ((HandleTargetKubeletRequest k m req Response.fresh).returned = true →
      (HandleTargetKubeletRequest k m req Response.fresh).trace.countP HEvent.isReady = 1 ∧
      (HandleTargetKubeletRequest k m req Response.fresh).trace.countP HEvent.isRelease = 1 ∧
      ∃ (p : String) (r : Result),
        (HandleTargetKubeletRequest k m req Response.fresh).response = ⟨some 200, some r⟩ ∧
        (HandleTargetKubeletRequest k m req Response.fresh).trace =
          [HEvent.mkdirAll p, HEvent.dispatch pod, HEvent.recv Chan.done,
           HEvent.writeAsJson r, HEvent.writeHeader 200, HEvent.send Chan.unblock]) ∧
    (k.syncPod pod (migration.Options ⟨k.pathJoin m.migrationPath pod.UID,
        stringsSplit req.containers ','⟩) = none →
      (HandleTargetKubeletRequest k m req Response.fresh).returned = false ∧
      (HandleTargetKubeletRequest k m req Response.fresh).response = Response.fresh ∧
      (HandleTargetKubeletRequest k m req Response.fresh).trace.countP HEvent.isReady = 0 ∧
      (HandleTargetKubeletRequest k m req Response.fresh).trace.countP HEvent.isRelease = 0 ∧
      (HandleTargetKubeletRequest k m req Response.fresh).trace =
        [HEvent.mkdirAll (k.pathJoin m.migrationPath pod.UID), HEvent.dispatch pod]) ∧
    (∀ cs, k.syncPod pod (migration.Options ⟨k.pathJoin m.migrationPath pod.UID,
        stringsSplit req.containers ','⟩) = some cs →
      (HandleTargetKubeletRequest k m req Response.fresh).trace.countP HEvent.isReady = 1 ∧
      (HandleTargetKubeletRequest k m req Response.fresh).response =
        ⟨some 200, some ⟨k.pathJoin m.migrationPath pod.UID,
          fillContainers k (k.pathJoin m.migrationPath pod.UID) cs []⟩⟩ ∧
      (k.takesUnblock pod = false →
        (HandleTargetKubeletRequest k m req Response.fresh).returned = false ∧
        (HandleTargetKubeletRequest k m req Response.fresh).trace.countP HEvent.isRelease = 0 ∧
        (HandleTargetKubeletRequest k m req Response.fresh).trace =
          [HEvent.mkdirAll (k.pathJoin m.migrationPath pod.UID), HEvent.dispatch pod,
           HEvent.recv Chan.done,
           HEvent.writeAsJson ⟨k.pathJoin m.migrationPath pod.UID,
             fillContainers k (k.pathJoin m.migrationPath pod.UID) cs []⟩,
           HEvent.writeHeader 200]) ∧
      (k.takesUnblock pod = true →
        (HandleTargetKubeletRequest k m req Response.fresh).returned = true ∧
        (HandleTargetKubeletRequest k m req Response.fresh).trace.countP HEvent.isRelease = 1 ∧
        (HandleTargetKubeletRequest k m req Response.fresh).trace =
          [HEvent.mkdirAll (k.pathJoin m.migrationPath pod.UID), HEvent.dispatch pod,
           HEvent.recv Chan.done,
           HEvent.writeAsJson ⟨k.pathJoin m.migrationPath pod.UID,
             fillContainers k (k.pathJoin m.migrationPath pod.UID) cs []⟩,
           HEvent.writeHeader 200, HEvent.send Chan.unblock])) := by
  have ht := HandleTargetKubeletRequest_order_trace k m req pod hpod hrun
  have hr := HandleTargetKubeletRequest_runs k m req pod hpod hrun
  refine ⟨ht.1, ht.2.1, ht.2.2.1, ht.2.2.2.1, ht.2.2.2.2.1, ht.2.2.2.2.2.1, ht.2.2.2.2.2.2,
    fun hs => ?_, fun cs hs => ?_⟩
  · obtain ⟨h1, h2, h3⟩ := hr.1 hs
    refine ⟨h1, h2, ?_, ?_, h3⟩ <;> rw [h3] <;>
      simp [List.countP_cons, HEvent.isReady, HEvent.isRelease]
  · obtain ⟨h1, h2, h3⟩ := hr.2 cs hs
    refine ⟨?_, h1, fun hu => ?_, fun hu => ?_⟩
    · cases hu : k.takesUnblock pod
      · rw [(h2 hu).2]; simp [List.countP_cons, HEvent.isReady]
      · rw [(h3 hu).2]; simp [List.countP_cons, HEvent.isReady]
    · refine ⟨(h2 hu).1, ?_, (h2 hu).2⟩
      rw [(h2 hu).2]; simp [List.countP_cons, HEvent.isRelease]
    · refine ⟨(h3 hu).1, ?_, (h3 hu).2⟩
      rw [(h3 hu).2]; simp [List.countP_cons, HEvent.isRelease]

/-- The call for the running pod `uid-1`, whose sync path signals `done` and takes the release,
answers 200 and returns with each signal used once, in order. -/
theorem HandleTargetKubeletRequest_order_witness :
    Precedes HEvent.isReady HEvent.isResponse
      (HandleTargetKubeletRequest exampleKubelet
        (NewMigrationManager exampleKubelet "/var/lib/kubelet") ⟨"uid-1", "c1,c2"⟩
        Response.fresh).trace ∧
    Precedes HEvent.isResponse HEvent.isRelease
      (HandleTargetKubeletRequest exampleKubelet
        (NewMigrationManager exampleKubelet "/var/lib/kubelet") ⟨"uid-1", "c1,c2"⟩
        Response.fresh).trace ∧
    (HandleTargetKubeletRequest exampleKubelet
        (NewMigrationManager exampleKubelet "/var/lib/kubelet") ⟨"uid-1", "c1,c2"⟩
        Response.fresh).trace.countP HEvent.isReady = 1 ∧
    (HandleTargetKubeletRequest exampleKubelet
        (NewMigrationManager exampleKubelet "/var/lib/kubelet") ⟨"uid-1", "c1,c2"⟩
        Response.fresh).trace.countP HEvent.isRelease = 1 ∧
    (HandleTargetKubeletRequest exampleKubelet
        (NewMigrationManager exampleKubelet "/var/lib/kubelet") ⟨"uid-1", "c1,c2"⟩
        Response.fresh).returned = true ∧
    (HandleTargetKubeletRequest exampleKubelet
        (NewMigrationManager exampleKubelet "/var/lib/kubelet") ⟨"uid-1", "c1,c2"⟩
        Response.fresh).response.status = some 200 :=
  have h := HandleTargetKubeletRequest_order exampleKubelet
    (NewMigrationManager exampleKubelet "/var/lib/kubelet") ⟨"uid-1", "c1,c2"⟩
    ⟨"uid-1", "web", "Running"⟩ rfl rfl
  have hs := h.2.2.2.2.2.2.2.2 ["c1", "c2"] rfl
  ⟨h.1, h.2.1, hs.1, (hs.2.2.2 rfl).2.1, (hs.2.2.2 rfl).1, congrArg Response.status hs.2.1⟩

/-- C3, the claim as stated fails: with a sync path that never signals `done`, the request for
the running pod `uid-1` is accepted (no 404, no 409, the dispatch hook is called), and the call
stays blocked having received from `done` zero times and sent on `unblock` zero times, not
once each. -/
theorem HandleTargetKubeletRequest_stalled :
    stalledKubelet.GetPodByUID "uid-1" = some ⟨"uid-1", "web", PodRunning⟩ ∧
    (HandleTargetKubeletRequest stalledKubelet
        (NewMigrationManager stalledKubelet "/var/lib/kubelet") ⟨"uid-1", "c1,c2"⟩
        Response.fresh).trace =
      [HEvent.mkdirAll "/var/lib/kubelet/migration/uid-1",
       HEvent.dispatch ⟨"uid-1", "web", PodRunning⟩] ∧
    (HandleTargetKubeletRequest stalledKubelet
        (NewMigrationManager stalledKubelet "/var/lib/kubelet") ⟨"uid-1", "c1,c2"⟩
        Response.fresh).trace.countP HEvent.isReady = 0 ∧
    (HandleTargetKubeletRequest stalledKubelet
        (NewMigrationManager stalledKubelet "/var/lib/kubelet") ⟨"uid-1", "c1,c2"⟩
        Response.fresh).trace.countP HEvent.isRelease = 0 ∧
    ¬ ((HandleTargetKubeletRequest stalledKubelet
          (NewMigrationManager stalledKubelet "/var/lib/kubelet") ⟨"uid-1", "c1,c2"⟩
          Response.fresh).trace.countP HEvent.isReady = 1 ∧
       (HandleTargetKubeletRequest stalledKubelet
          (NewMigrationManager stalledKubelet "/var/lib/kubelet") ⟨"uid-1", "c1,c2"⟩
          Response.fresh).trace.countP HEvent.isRelease = 1) := by
  decide

theorem splitChars_ne_nil (sep : Char) (s : List Char) : splitChars sep s ≠ [] := by
  cases s with
  | nil => simp [splitChars]
  | cons c cs =>
    unfold splitChars
    split
    · simp
    · split <;> simp

theorem splitChars_free (sep : Char) (w : List Char) (h : sep ∉ w) :
    splitChars sep w = [w] := by
  induction w with
  | nil => rfl
  | cons c cs ih =>
    simp only [List.mem_cons, not_or] at h
    have hc : ¬ c = sep := fun e => h.1 e.symm
    simp [splitChars, hc, ih h.2]

theorem splitChars_append_sep (sep : Char) (w rest : List Char) (h : sep ∉ w) :
    splitChars sep (w ++ sep :: rest) = w :: splitChars sep rest := by
  induction w with
  | nil => simp [splitChars]
  | cons c cs ih =>
    simp only [List.mem_cons, not_or] at h
    have hc : ¬ c = sep := fun e => h.1 e.symm
    simp [splitChars, hc, ih h.2]

/-- Splitting at the separator gives back the names that were joined with it, for one name
or more, none of which holds the separator. -/
theorem splitChars_intercalate (sep : Char) (names : List (List Char)) (hne : names ≠ [])
    (hfree : ∀ w ∈ names, sep ∉ w) :
    splitChars sep ([sep].intercalate names) = names := by
  induction names with
  | nil => exact absurd rfl hne
  | cons w rest ih =>
    cases rest with
    | nil => simpa [List.intercalate] using splitChars_free sep w (hfree w (by simp))
    | cons v rest =>
      have h1 : [sep].intercalate (w :: v :: rest) = w ++ sep :: [sep].intercalate (v :: rest) := by
        simp [List.intercalate, List.intersperse]
      rw [h1, splitChars_append_sep sep w _ (hfree w (by simp)),
        ih (by simp) (fun u hu => hfree u (by simp [hu]))]

/-! ## Theorems: remote directory mirror -/

theorem path_ne_of_name_ne {P : Path} {n n' : String} (q q' : Path) (h : n ≠ n') :
    P ++ n :: q ≠ P ++ n' :: q' := by
  intro e
  have := List.append_cancel_left e
  simp at this
  exact h this.1

theorem ancestor_ne {P x r : Path} (h : P = x ++ r) (n : String) (q : Path) :
    x ≠ P ++ n :: q := by
  intro e
  have hl := congrArg List.length e
  rw [h] at hl
  simp only [List.length_append, List.length_cons] at hl
  omega

theorem Listing.lookup_of_not_mem (t : Listing) (n : String) (q : Path) (h : n ∉ t.names) :
    t.lookup (n :: q) = none := by
  induction t with
  | nil => rfl
  | leaf name what rest ih =>
    simp only [Listing.names, List.mem_cons, not_or] at h
    simp [Listing.lookup, h.1, ih h.2]
  | dir name children rest _ ih =>
    simp only [Listing.names, List.mem_cons, not_or] at h
    simp [Listing.lookup, h.1, ih h.2]

/-- Making the directory `P ++ [n]` under the directory `P`, with nothing at `P ++ [n]`. -/
theorem FS.MkdirAll_child (fs : FS) (P : Path) (n : String)
    (hanc : ∀ x r, P = x ++ r → fs x = some Obj.dir) (hfree : fs (P ++ [n]) = none) :
    ∃ fs', fs.MkdirAll (P ++ [n]) = some fs' ∧
      ∀ x, fs' x = if x = P ++ [n] then some Obj.dir else fs x := by
  have hin : ∀ x, x ∈ (P ++ [n]).inits ↔ (∃ r, P = x ++ r) ∨ x = P ++ [n] := by
    intro x
    rw [List.mem_inits]
    constructor
    · rintro ⟨r, hr⟩
      rcases List.eq_nil_or_concat r with rfl | ⟨r', a, rfl⟩
      · right; simpa using hr
      · left
        rw [List.concat_eq_append, ← List.append_assoc] at hr
        have := List.append_inj' hr rfl
        exact ⟨r', this.1.symm⟩
    · rintro (⟨r, rfl⟩ | rfl)
      · exact ⟨r ++ [n], by simp⟩
      · exact ⟨[], by simp⟩
  have hall : (P ++ [n]).inits.all (fun q => decide (fs q = none ∨ fs q = some Obj.dir)) = true := by
    rw [List.all_eq_true]
    intro x hx
    rcases (hin x).1 hx with ⟨r, hr⟩ | rfl
    · simp [hanc x r hr]
    · simp [hfree]
  refine ⟨_, by rw [FS.MkdirAll, if_pos hall], fun x => ?_⟩
  by_cases hx : x = P ++ [n]
  · rw [if_pos hx, if_pos ((hin x).2 (Or.inr hx))]
  · rw [if_neg hx]
    by_cases hx' : x ∈ (P ++ [n]).inits
    · rcases (hin x).1 hx' with ⟨r, hr⟩ | h
      · rw [if_pos hx', hanc x r hr]
      · exact absurd h hx
    · rw [if_neg hx']

theorem downloadDir_mkdir_child (st : Mirror) (P : Path) (n : String)
    (hanc : ∀ x r, P = x ++ r → st.fs x = some Obj.dir) (hfree : st.fs (P ++ [n]) = none) :
    (downloadDir.mkdir (P ++ [n]) st).log = st.log ∧
      ∀ x, (downloadDir.mkdir (P ++ [n]) st).fs x =
        if x = P ++ [n] then some Obj.dir else st.fs x := by
  obtain ⟨fs', h1, h2⟩ := FS.MkdirAll_child st.fs P n hanc hfree
  have e : downloadDir.mkdir (P ++ [n]) st = { st with fs := fs' } := by
    simp only [downloadDir.mkdir, h1]
  rw [e]
  exact ⟨rfl, h2⟩

theorem downloadFile_child (what : Leaf) (st : Mirror) (P : Path) (n : String)
    (hdir : st.fs P = some Obj.dir) (hfree : st.fs (P ++ [n]) = none) :
    ∃ st', downloadFile what (P ++ [n]) st = some st' ∧ st'.log = st.log ∧
      ∀ x, st'.fs x = if x = P ++ [n] then some what.obj else st.fs x := by
  have hne : P ++ [n] ≠ [] := by simp
  have hparent : (P ++ [n]).dropLast = P := by simp
  cases what with
  | file content =>
    have hc : st.fs.Create (P ++ [n]) = some (st.fs.put (P ++ [n]) (Obj.file [])) := by
      rw [FS.Create, if_pos]
      exact ⟨hne, by rw [hparent]; exact hdir, by rw [hfree]; rfl⟩
    refine ⟨{ st with fs := (st.fs.put (P ++ [n]) (Obj.file [])).Copy (P ++ [n]) content },
      by simp only [downloadFile, hc], rfl, fun x => ?_⟩
    by_cases hx : x = P ++ [n] <;> simp [FS.Copy, FS.put, hx, Leaf.obj]
  | symlink target =>
    have hc : st.fs.Symlink target (P ++ [n]) = some (st.fs.put (P ++ [n]) (Obj.symlink target)) := by
      rw [FS.Symlink, if_pos]
      exact ⟨hne, by rw [hparent]; exact hdir, hfree⟩
    refine ⟨{ st with fs := st.fs.put (P ++ [n]) (Obj.symlink target) },
      by simp only [downloadFile, hc], rfl, fun x => ?_⟩
    by_cases hx : x = P ++ [n] <;> simp [FS.put, hx, Leaf.obj]

/-- The loop of `downloadDir`, started in a directory `P` whose ancestors are directories and
under which nothing stands at the names of the listing: it ends without a panic and without a
logged error, it leaves at every path under those names what the source holds there, and it
changes nothing else. -/
theorem downloadDir_loop_spec (t : Listing) :
    ∀ (P : Path) (st : Mirror), t.WF →
      (∀ x r, P = x ++ r → st.fs x = some Obj.dir) →
      (∀ n ∈ t.names, ∀ q, st.fs (P ++ n :: q) = none) →
      ∃ st', downloadDir.loop t P st = some st' ∧ st'.log = st.log ∧
        (∀ n ∈ t.names, ∀ q, st'.fs (P ++ n :: q) = t.lookup (n :: q)) ∧
        (∀ x, (∀ n ∈ t.names, ∀ q, x ≠ P ++ n :: q) → st'.fs x = st.fs x) := by
  induction t with
  | nil =>
    intro P st _ _ _
    exact ⟨st, rfl, rfl, fun n hn => by simp [Listing.names] at hn, fun _ _ => rfl⟩
  | leaf name what rest ih =>
    intro P st hwf hanc hfree
    obtain ⟨hname, hwfr⟩ := hwf
    obtain ⟨st1, h1, hlog1, hfs1⟩ := downloadFile_child what st P name (hanc P [] (by simp))
      (hfree name (by simp [Listing.names]) [])
    have hanc1 : ∀ x r, P = x ++ r → st1.fs x = some Obj.dir := by
      intro x r hx
      rw [hfs1, if_neg (ancestor_ne hx name []), hanc x r hx]
    have hfree1 : ∀ n ∈ rest.names, ∀ q, st1.fs (P ++ n :: q) = none := by
      intro n hn q
      have hne : n ≠ name := fun e => hname (e ▸ hn)
      rw [hfs1, if_neg (path_ne_of_name_ne q [] hne)]
      exact hfree n (by simp [Listing.names, hn]) q
    obtain ⟨st2, h2, hlog2, hin2, hout2⟩ := ih P st1 hwfr hanc1 hfree1
    refine ⟨st2, by simp only [downloadDir.loop, h1, Option.bind, h2], by rw [hlog2, hlog1],
      ?_, ?_⟩
    · intro n hn q
      simp only [Listing.names, List.mem_cons] at hn
      by_cases hnn : n = name
      · subst hnn
        rw [hout2 _ (fun n' hn' q' => path_ne_of_name_ne q q' (fun e => hname (by rw [e]; exact hn'))), hfs1]
        by_cases hq : q = []
        · subst hq; simp [Listing.lookup]
        · have : P ++ n :: q ≠ P ++ [n] := by
            intro e
            have := List.append_cancel_left e
            simp at this
            exact hq this
          rw [if_neg this, hfree n (by simp [Listing.names]) q]
          simp [Listing.lookup, hq]
      · have hn' : n ∈ rest.names := by tauto
        rw [hin2 n hn' q]
        simp [Listing.lookup, hnn]
    · intro x hx
      rw [hout2 x (fun n hn q => hx n (by simp [Listing.names, hn]) q), hfs1,
        if_neg (hx name (by simp [Listing.names]) [])]
  | dir name children rest ihc ihr =>
    intro P st hwf hanc hfree
    obtain ⟨hname, hwfc, hwfr⟩ := hwf
    obtain ⟨hlog1, hfs1⟩ := downloadDir_mkdir_child st P name hanc
      (hfree name (by simp [Listing.names]) [])
    have hancc : ∀ x r, P ++ [name] = x ++ r →
        (downloadDir.mkdir (P ++ [name]) st).fs x = some Obj.dir := by
      intro x r hx
      rw [hfs1]
      by_cases hxe : x = P ++ [name]
      · rw [if_pos hxe]
      · rw [if_neg hxe]
        rcases List.eq_nil_or_concat r with rfl | ⟨r', a, rfl⟩
        · exact absurd (by simpa using hx.symm) hxe
        · rw [List.concat_eq_append, ← List.append_assoc] at hx
          exact hanc x r' (List.append_inj' hx rfl).1
    have hfreec : ∀ n ∈ children.names, ∀ q,
        (downloadDir.mkdir (P ++ [name]) st).fs (P ++ [name] ++ n :: q) = none := by
      intro n _ q
      have hne : P ++ [name] ++ n :: q ≠ P ++ [name] := by
        intro e
        have hl := congrArg List.length e
        simp only [List.length_append, List.length_cons] at hl
        omega
      rw [hfs1, if_neg hne, List.append_assoc]
      exact hfree name (by simp [Listing.names]) (n :: q)
    obtain ⟨st2, h2, hlog2, hin2, hout2⟩ := ihc (P ++ [name]) _ hwfc hancc hfreec
    have hout2' : ∀ x, (∀ q, x ≠ P ++ name :: q) → st2.fs x = st.fs x := by
      intro x hx
      rw [hout2 x (fun n _ q => by rw [List.append_assoc]; exact hx (n :: q)), hfs1,
        if_neg (hx [])]
    have hanc2 : ∀ x r, P = x ++ r → st2.fs x = some Obj.dir := by
      intro x r hx
      rw [hout2' x (fun q => ancestor_ne hx name q), hanc x r hx]
    have hfree2 : ∀ n ∈ rest.names, ∀ q, st2.fs (P ++ n :: q) = none := by
      intro n hn q
      have hne : n ≠ name := fun e => hname (e ▸ hn)
      rw [hout2' _ (fun q' => path_ne_of_name_ne q q' hne)]
      exact hfree n (by simp [Listing.names, hn]) q
    obtain ⟨st3, h3, hlog3, hin3, hout3⟩ := ihr P st2 hwfr hanc2 hfree2
    refine ⟨st3, by simp only [downloadDir.loop, h2, Option.bind, h3],
      by rw [hlog3, hlog2, hlog1], ?_, ?_⟩
    · intro n hn q
      simp only [Listing.names, List.mem_cons] at hn
      by_cases hnn : n = name
      · subst hnn
        rw [hout3 _ (fun n' hn' q' => path_ne_of_name_ne q q' (fun e => hname (by rw [e]; exact hn')))]
        cases q with
        | nil =>
          rw [hout2 _ (fun m _ q' => by
            intro e
            have hl := congrArg List.length e
            simp only [List.length_append, List.length_cons, List.length_nil] at hl
            omega), hfs1]
          simp [Listing.lookup]
        | cons m q' =>
          by_cases hm : m ∈ children.names
          · have := hin2 m hm q'
            rw [List.append_assoc] at this
            simp only [List.singleton_append] at this
            rw [this]
            simp [Listing.lookup]
          · rw [hout2 _ (fun m' hm' q'' => by
              rw [List.append_assoc]
              intro e
              have := List.append_cancel_left e
              simp at this
              exact hm (this.1 ▸ hm')), hfs1]
            have hne : P ++ n :: m :: q' ≠ P ++ [n] := by
              intro e
              have hl := congrArg List.length e
              simp only [List.length_append, List.length_cons, List.length_nil] at hl
              omega
            rw [if_neg hne, hfree n (by simp [Listing.names]) (m :: q')]
            simp [Listing.lookup, Listing.lookup_of_not_mem children m q' hm]
      · have hn' : n ∈ rest.names := by tauto
        rw [hin3 n hn' q]
        simp [Listing.lookup, hnn]
    · intro x hx
      rw [hout3 x (fun n hn q => hx n (by simp [Listing.names, hn]) q),
        hout2' x (fun q => hx name (by simp [Listing.names]) q)]

/-- Mirroring into the empty file system with `downloadDir`: no panic, no logged error, and at
every path under the local directory what the source holds at that path. -/
theorem downloadDir_spec (t : Listing) (hwf : t.WF) (localPath : Path) :
    ∃ st, downloadDir t localPath ⟨FS.empty, []⟩ = some st ∧ st.log = [] ∧
      ∀ p, st.fs (localPath ++ p) = t.lookup p := by
  have hall : localPath.inits.all
      (fun q => decide (FS.empty q = none ∨ FS.empty q = some Obj.dir)) = true := by
    rw [List.all_eq_true]
    intro x _
    by_cases hx : x = [] <;> simp [FS.empty, hx]
  have hmk : downloadDir.mkdir localPath ⟨FS.empty, []⟩ =
      ⟨fun q => if q ∈ localPath.inits then some Obj.dir else FS.empty q, []⟩ := by
    simp only [downloadDir.mkdir, FS.MkdirAll, hall, if_true]
  have hanc : ∀ x r, localPath = x ++ r →
      (downloadDir.mkdir localPath ⟨FS.empty, []⟩).fs x = some Obj.dir := by
    intro x r hx
    rw [hmk]
    have : x ∈ localPath.inits := (List.mem_inits x localPath).2 ⟨r, hx.symm⟩
    simp only [if_pos this]
  have hout : ∀ n q, (downloadDir.mkdir localPath ⟨FS.empty, []⟩).fs (localPath ++ n :: q) =
      none := by
    intro n q
    rw [hmk]
    have h1 : localPath ++ n :: q ∉ localPath.inits := by
      intro h
      obtain ⟨r, hr⟩ := (List.mem_inits _ _).1 h
      have hl := congrArg List.length hr
      simp only [List.length_append, List.length_cons] at hl
      omega
    have h2 : localPath ++ n :: q ≠ [] := by simp
    simp only [if_neg h1, FS.empty, if_neg h2]
  obtain ⟨st, h, hlog, hin, hrest⟩ := downloadDir_loop_spec t localPath _ hwf hanc
    (fun n _ q => hout n q)
  refine ⟨st, h, by rw [hlog, hmk], fun p => ?_⟩
  cases p with
  | nil =>
    rw [List.append_nil, hrest _ (fun n _ q => ancestor_ne (List.append_nil _).symm n q),
      hanc localPath [] (by simp)]
    cases t <;> rfl
  | cons n q =>
    by_cases hn : n ∈ t.names
    · exact hin n hn q
    · rw [hrest _ (fun n' hn' q' => path_ne_of_name_ne q q' (fun e => hn (by rw [e]; exact hn'))),
        hout n q, Listing.lookup_of_not_mem t n q hn]

theorem uploadDir_mkdir_child (st : Mirror) (P : Path) (n : String)
    (hanc : ∀ x r, P = x ++ r → st.fs x = some Obj.dir) (hfree : st.fs (P ++ [n]) = none) :
    (uploadDir.mkdir (P ++ [n]) st).log = st.log ∧
      ∀ x, (uploadDir.mkdir (P ++ [n]) st).fs x =
        if x = P ++ [n] then some Obj.dir else st.fs x := by
  obtain ⟨fs', h1, h2⟩ := FS.MkdirAll_child st.fs P n hanc hfree
  have e : uploadDir.mkdir (P ++ [n]) st = { st with fs := fs' } := by
    simp only [uploadDir.mkdir, h1]
  rw [e]
  exact ⟨rfl, h2⟩

theorem uploadFile_child (what : Leaf) (st : Mirror) (P : Path) (n : String)
    (hdir : st.fs P = some Obj.dir) (hfree : st.fs (P ++ [n]) = none) :
    ∃ st', uploadFile what (P ++ [n]) st = some st' ∧ st'.log = st.log ∧
      ∀ x, st'.fs x = if x = P ++ [n] then some what.obj else st.fs x := by
  have hne : P ++ [n] ≠ [] := by simp
  have hparent : (P ++ [n]).dropLast = P := by simp
  cases what with
  | file content =>
    have hc : st.fs.Create (P ++ [n]) = some (st.fs.put (P ++ [n]) (Obj.file [])) := by
      rw [FS.Create, if_pos]
      exact ⟨hne, by rw [hparent]; exact hdir, by rw [hfree]; rfl⟩
    refine ⟨{ st with fs := (st.fs.put (P ++ [n]) (Obj.file [])).Copy (P ++ [n]) content },
      by simp only [uploadFile, hc], rfl, fun x => ?_⟩
    by_cases hx : x = P ++ [n] <;> simp [FS.Copy, FS.put, hx, Leaf.obj]
  | symlink target =>
    have hc : st.fs.Symlink target (P ++ [n]) = some (st.fs.put (P ++ [n]) (Obj.symlink target)) := by
      rw [FS.Symlink, if_pos]
      exact ⟨hne, by rw [hparent]; exact hdir, hfree⟩
    refine ⟨{ st with fs := st.fs.put (P ++ [n]) (Obj.symlink target) },
      by simp only [uploadFile, hc], rfl, fun x => ?_⟩
    by_cases hx : x = P ++ [n] <;> simp [FS.put, hx, Leaf.obj]

/-- The loop of `uploadDir`, like the loop of `downloadDir`, started in a directory `P` whose ancestors are directories and
under which nothing stands at the names of the listing: it ends without a panic and without a
logged error, it leaves at every path under those names what the source holds there, and it
changes nothing else. -/
theorem uploadDir_loop_spec (t : Listing) :
    ∀ (P : Path) (st : Mirror), t.WF →
      (∀ x r, P = x ++ r → st.fs x = some Obj.dir) →
      (∀ n ∈ t.names, ∀ q, st.fs (P ++ n :: q) = none) →
      ∃ st', uploadDir.loop t P st = some st' ∧ st'.log = st.log ∧
        (∀ n ∈ t.names, ∀ q, st'.fs (P ++ n :: q) = t.lookup (n :: q)) ∧
        (∀ x, (∀ n ∈ t.names, ∀ q, x ≠ P ++ n :: q) → st'.fs x = st.fs x) := by
  induction t with
  | nil =>
    intro P st _ _ _
    exact ⟨st, rfl, rfl, fun n hn => by simp [Listing.names] at hn, fun _ _ => rfl⟩
  | leaf name what rest ih =>
    intro P st hwf hanc hfree
    obtain ⟨hname, hwfr⟩ := hwf
    obtain ⟨st1, h1, hlog1, hfs1⟩ := uploadFile_child what st P name (hanc P [] (by simp))
      (hfree name (by simp [Listing.names]) [])
    have hanc1 : ∀ x r, P = x ++ r → st1.fs x = some Obj.dir := by
      intro x r hx
      rw [hfs1, if_neg (ancestor_ne hx name []), hanc x r hx]
    have hfree1 : ∀ n ∈ rest.names, ∀ q, st1.fs (P ++ n :: q) = none := by
      intro n hn q
      have hne : n ≠ name := fun e => hname (e ▸ hn)
      rw [hfs1, if_neg (path_ne_of_name_ne q [] hne)]
      exact hfree n (by simp [Listing.names, hn]) q
    obtain ⟨st2, h2, hlog2, hin2, hout2⟩ := ih P st1 hwfr hanc1 hfree1
    refine ⟨st2, by simp only [uploadDir.loop, h1, Option.bind, h2], by rw [hlog2, hlog1],
      ?_, ?_⟩
    · intro n hn q
      simp only [Listing.names, List.mem_cons] at hn
      by_cases hnn : n = name
      · subst hnn
        rw [hout2 _ (fun n' hn' q' => path_ne_of_name_ne q q' (fun e => hname (by rw [e]; exact hn'))), hfs1]
        by_cases hq : q = []
        · subst hq; simp [Listing.lookup]
        · have : P ++ n :: q ≠ P ++ [n] := by
            intro e
            have := List.append_cancel_left e
            simp at this
            exact hq this
          rw [if_neg this, hfree n (by simp [Listing.names]) q]
          simp [Listing.lookup, hq]
      · have hn' : n ∈ rest.names := by tauto
        rw [hin2 n hn' q]
        simp [Listing.lookup, hnn]
    · intro x hx
      rw [hout2 x (fun n hn q => hx n (by simp [Listing.names, hn]) q), hfs1,
        if_neg (hx name (by simp [Listing.names]) [])]
  | dir name children rest ihc ihr =>
    intro P st hwf hanc hfree
    obtain ⟨hname, hwfc, hwfr⟩ := hwf
    obtain ⟨hlog1, hfs1⟩ := uploadDir_mkdir_child st P name hanc
      (hfree name (by simp [Listing.names]) [])
    have hancc : ∀ x r, P ++ [name] = x ++ r →
        (uploadDir.mkdir (P ++ [name]) st).fs x = some Obj.dir := by
      intro x r hx
      rw [hfs1]
      by_cases hxe : x = P ++ [name]
      · rw [if_pos hxe]
      · rw [if_neg hxe]
        rcases List.eq_nil_or_concat r with rfl | ⟨r', a, rfl⟩
        · exact absurd (by simpa using hx.symm) hxe
        · rw [List.concat_eq_append, ← List.append_assoc] at hx
          exact hanc x r' (List.append_inj' hx rfl).1
    have hfreec : ∀ n ∈ children.names, ∀ q,
        (uploadDir.mkdir (P ++ [name]) st).fs (P ++ [name] ++ n :: q) = none := by
      intro n _ q
      have hne : P ++ [name] ++ n :: q ≠ P ++ [name] := by
        intro e
        have hl := congrArg List.length e
        simp only [List.length_append, List.length_cons] at hl
        omega
      rw [hfs1, if_neg hne, List.append_assoc]
      exact hfree name (by simp [Listing.names]) (n :: q)
    obtain ⟨st2, h2, hlog2, hin2, hout2⟩ := ihc (P ++ [name]) _ hwfc hancc hfreec
    have hout2' : ∀ x, (∀ q, x ≠ P ++ name :: q) → st2.fs x = st.fs x := by
      intro x hx
      rw [hout2 x (fun n _ q => by rw [List.append_assoc]; exact hx (n :: q)), hfs1,
        if_neg (hx [])]
    have hanc2 : ∀ x r, P = x ++ r → st2.fs x = some Obj.dir := by
      intro x r hx
      rw [hout2' x (fun q => ancestor_ne hx name q), hanc x r hx]
    have hfree2 : ∀ n ∈ rest.names, ∀ q, st2.fs (P ++ n :: q) = none := by
      intro n hn q
      have hne : n ≠ name := fun e => hname (e ▸ hn)
      rw [hout2' _ (fun q' => path_ne_of_name_ne q q' hne)]
      exact hfree n (by simp [Listing.names, hn]) q
    obtain ⟨st3, h3, hlog3, hin3, hout3⟩ := ihr P st2 hwfr hanc2 hfree2
    refine ⟨st3, by simp only [uploadDir.loop, h2, Option.bind, h3],
      by rw [hlog3, hlog2, hlog1], ?_, ?_⟩
    · intro n hn q
      simp only [Listing.names, List.mem_cons] at hn
      by_cases hnn : n = name
      · subst hnn
        rw [hout3 _ (fun n' hn' q' => path_ne_of_name_ne q q' (fun e => hname (by rw [e]; exact hn')))]
        cases q with
        | nil =>
          rw [hout2 _ (fun m _ q' => by
            intro e
            have hl := congrArg List.length e
            simp only [List.length_append, List.length_cons, List.length_nil] at hl
            omega), hfs1]
          simp [Listing.lookup]
        | cons m q' =>
          by_cases hm : m ∈ children.names
          · have := hin2 m hm q'
            rw [List.append_assoc] at this
            simp only [List.singleton_append] at this
            rw [this]
            simp [Listing.lookup]
          · rw [hout2 _ (fun m' hm' q'' => by
              rw [List.append_assoc]
              intro e
              have := List.append_cancel_left e
              simp at this
              exact hm (this.1 ▸ hm')), hfs1]
            have hne : P ++ n :: m :: q' ≠ P ++ [n] := by
              intro e
              have hl := congrArg List.length e
              simp only [List.length_append, List.length_cons, List.length_nil] at hl
              omega
            rw [if_neg hne, hfree n (by simp [Listing.names]) (m :: q')]
            simp [Listing.lookup, Listing.lookup_of_not_mem children m q' hm]
      · have hn' : n ∈ rest.names := by tauto
        rw [hin3 n hn' q]
        simp [Listing.lookup, hnn]
    · intro x hx
      rw [hout3 x (fun n hn q => hx n (by simp [Listing.names, hn]) q),
        hout2' x (fun q => hx name (by simp [Listing.names]) q)]

/-- Mirroring into the empty file system with `uploadDir`: no panic, no logged error, and at
every path under the remote directory what the source holds at that path. -/
theorem uploadDir_spec (t : Listing) (hwf : t.WF) (remotePath : Path) :
    ∃ st, uploadDir t remotePath ⟨FS.empty, []⟩ = some st ∧ st.log = [] ∧
      ∀ p, st.fs (remotePath ++ p) = t.lookup p := by
  have hall : remotePath.inits.all
      (fun q => decide (FS.empty q = none ∨ FS.empty q = some Obj.dir)) = true := by
    rw [List.all_eq_true]
    intro x _
    by_cases hx : x = [] <;> simp [FS.empty, hx]
  have hmk : uploadDir.mkdir remotePath ⟨FS.empty, []⟩ =
      ⟨fun q => if q ∈ remotePath.inits then some Obj.dir else FS.empty q, []⟩ := by
    simp only [uploadDir.mkdir, FS.MkdirAll, hall, if_true]
  have hanc : ∀ x r, remotePath = x ++ r →
      (uploadDir.mkdir remotePath ⟨FS.empty, []⟩).fs x = some Obj.dir := by
    intro x r hx
    rw [hmk]
    have : x ∈ remotePath.inits := (List.mem_inits x remotePath).2 ⟨r, hx.symm⟩
    simp only [if_pos this]
  have hout : ∀ n q, (uploadDir.mkdir remotePath ⟨FS.empty, []⟩).fs (remotePath ++ n :: q) =
      none := by
    intro n q
    rw [hmk]
    have h1 : remotePath ++ n :: q ∉ remotePath.inits := by
      intro h
      obtain ⟨r, hr⟩ := (List.mem_inits _ _).1 h
      have hl := congrArg List.length hr
      simp only [List.length_append, List.length_cons] at hl
      omega
    have h2 : remotePath ++ n :: q ≠ [] := by simp
    simp only [if_neg h1, FS.empty, if_neg h2]
  obtain ⟨st, h, hlog, hin, hrest⟩ := uploadDir_loop_spec t remotePath _ hwf hanc
    (fun n _ q => hout n q)
  refine ⟨st, h, by rw [hlog, hmk], fun p => ?_⟩
  cases p with
  | nil =>
    rw [List.append_nil, hrest _ (fun n _ q => ancestor_ne (List.append_nil _).symm n q),
      hanc remotePath [] (by simp)]
    cases t <;> rfl
  | cons n q =>
    by_cases hn : n ∈ t.names
    · exact hin n hn q
    · rw [hrest _ (fun n' hn' q' => path_ne_of_name_ne q q' (fun e => hn (by rw [e]; exact hn'))),
        hout n q, Listing.lookup_of_not_mem t n q hn]

/-- C9: for a source tree that names each entry once in every directory, mirroring it into the
empty file system at any destination path, with `downloadDir` or with `uploadDir`, ends without
panic and without a logged error, and at every path under the destination stands what the
source holds at that path: a directory for a directory, a regular file with the same bytes for
a regular file, a symbolic link with the same target for a symbolic link, and nothing where
the source has nothing. -/
theorem mirror_reproduces_tree (t : Listing) (hwf : t.WF) (dst : Path) :
    (∃ st, downloadDir t dst ⟨FS.empty, []⟩ = some st ∧ st.log = [] ∧
      ∀ p, st.fs (dst ++ p) = t.lookup p) ∧
    (∃ st, uploadDir t dst ⟨FS.empty, []⟩ = some st ∧ st.log = [] ∧
      ∀ p, st.fs (dst ++ p) = t.lookup p) :=
  ⟨downloadDir_spec t hwf dst, uploadDir_spec t hwf dst⟩

/-- The example tree names each entry once. -/
theorem exampleTree_WF : exampleTree.WF := by
  simp [exampleTree, Listing.WF, Listing.names]

/-- The example tree, with its nested directory, file and link, is reproduced in both
directions. -/
theorem mirror_reproduces_tree_witness :
    exampleTree.WF ∧
    (∃ st, downloadDir exampleTree ["var", "lib", "checkpoint"] ⟨FS.empty, []⟩ = some st ∧
      st.log = [] ∧
      st.fs ["var", "lib", "checkpoint", "layers"] = some Obj.dir ∧
      st.fs ["var", "lib", "checkpoint", "layers", "pages-1.img"] = some (Obj.file [1, 2, 3]) ∧
      st.fs ["var", "lib", "checkpoint", "parent"] = some (Obj.symlink "../preDump1") ∧
      st.fs ["var", "lib", "checkpoint", "layers", "parent"] = none) ∧
    (∃ st, uploadDir exampleTree ["var", "lib", "checkpoint"] ⟨FS.empty, []⟩ = some st ∧
      st.log = [] ∧
      st.fs ["var", "lib", "checkpoint", "layers"] = some Obj.dir ∧
      st.fs ["var", "lib", "checkpoint", "layers", "pages-1.img"] = some (Obj.file [1, 2, 3]) ∧
      st.fs ["var", "lib", "checkpoint", "parent"] = some (Obj.symlink "../preDump1") ∧
      st.fs ["var", "lib", "checkpoint", "layers", "parent"] = none) :=
  have h := mirror_reproduces_tree exampleTree exampleTree_WF ["var", "lib", "checkpoint"]
  ⟨exampleTree_WF,
    h.1.elim fun st hs => ⟨st, hs.1, hs.2.1, hs.2.2 ["layers"], hs.2.2 ["layers", "pages-1.img"],
      hs.2.2 ["parent"], hs.2.2 ["layers", "parent"]⟩,
    h.2.elim fun st hs => ⟨st, hs.1, hs.2.1, hs.2.2 ["layers"], hs.2.2 ["layers", "pages-1.img"],
      hs.2.2 ["parent"], hs.2.2 ["layers", "parent"]⟩⟩


end Migration
